import Mathlib

/-! Account engine of `backend/coins/btc/account.go`

A shallow embedding of the account engine: the fee-target table and its filtering
(`FeeTargets`), the fee-estimate callbacks (`updateFeeTargets`), the address-status flow
(`onAddressStatus`), address discovery (`ensureAddresses`, `subscribeAddress`) and the
life-cycle operations (`NewAccount`, `Init`, `Initialized`, `Close`).

How the program is modelled:

* The state is the record `Account` of the fields that `account.go` itself reads and writes.
  Every method becomes a function from the account to the new account.
* The collaborators of the engine (blockchain session, synchronizer, transaction store, header
  oracle, address derivation) are not part of `account.go`.  Every call the engine makes to one
  of them is recorded as an `Action` in the trace that a method returns; what a collaborator
  answers is a field of the parameter `Environment`.
* A callback handed to a collaborator is a handler of its own (`onAddressStatus`, `onHistory`,
  `onEstimateFee`, `onRelayFee`, `onSyncStarted`, `onSyncDone`, `onHeadersEvent`), run when the
  collaborator calls back, after the call that registered it has returned.  The callbacks of
  `ScriptHashGetHistory`, `EstimateFee` and `RelayFee` take `account.Lock()`: run inside the
  request they would block wherever the requester holds the lock (`updateFeeTargets`,
  `ensureAddresses`), and elsewhere the requester does nothing after the request but return.
  The synchronizer runs `onSyncStarted` and `onSyncDone` inside `IncRequestsCounter` and inside
  the release of a token; no method of `account.go` reads or writes `initialSyncDone` between
  such a call and its own return, so running them as steps of their own gives the same accounts.
* Pointers are positions: a `*FeeTarget` is a slot of `account.feeTargets`, a
  `*addresses.Address` is a branch and an index in that branch's chain.
* The `for` loop of `syncSequence` has no bound in the source; its model takes fuel and the
  result `Failure.outOfFuel` says that the fuel did not suffice.  A panic of the source is the
  result `Failure.panic`.
-/

namespace Btc

/-! ## Data model -/

/-- Modelled from the spec: the type `FeeTargetCode` is declared outside `account.go`; the spec
gives its four values `{ECONOMY, LOW, NORMAL, HIGH}`. -/
inductive FeeTargetCode where
  | FeeTargetCodeEconomy
  | FeeTargetCodeLow
  | FeeTargetCodeNormal
  | FeeTargetCodeHigh
deriving DecidableEq, Repr

open FeeTargetCode

/-- Modelled from the spec: the constant `defaultFeeTarget` is declared outside `account.go`;
the spec names `NORMAL` as the default code. -/
def defaultFeeTarget : FeeTargetCode := FeeTargetCodeNormal

/-- Modelled from the spec: the struct `FeeTarget` is declared outside `account.go`; the spec
gives it as `(blocks, code, fee_rate_per_kb: Option<Amount>)`.  `FeeRatePerKb` is a
`*btcutil.Amount` in the source: `none` is the nil pointer, `some r` a pointer to the amount `r`
(a signed 64 bit integer, only ever compared for equality here). -/
structure FeeTarget where
  Blocks : Nat
  Code : FeeTargetCode
  FeeRatePerKb : Option Int
deriving DecidableEq, Repr

/-- Modelled from the spec: the type `Event` is declared outside `account.go`; these are the
events `account.go` passes to `account.onEvent`, the five events the spec lists. -/
inductive Event where
  | EventSyncStarted
  | EventSyncDone
  | EventStatusChanged
  | EventHeadersSynced
  | EventFeeTargetsChanged
deriving DecidableEq, Repr

open Event

/-- Modelled from the spec: the struct `addresses.Address` is declared outside `account.go`;
of its fields `account.go` uses the script hash (fixed when the address is derived) and the
mutable field `HistoryStatus`. -/
structure Address where
  scriptHashHex : String
  HistoryStatus : String
deriving DecidableEq, Repr

/-- Modelled from the spec: the struct `addresses.AddressChain` is declared outside
`account.go`; the spec gives a chain as the ordered list of the addresses derived so far,
densely indexed from zero, and a gap limit. -/
structure AddressChain where
  addresses : List Address
  gapLimit : Nat
deriving DecidableEq, Repr

/-- A pointer `*addresses.Address`: the branch of the chain that owns the address
(`change = true` for the change branch) and the index of the address in that chain. -/
structure AddressRef where
  change : Bool
  index : Nat
deriving DecidableEq, Repr

/-- The fields of `Account` that `account.go` reads and writes.  The references to the
collaborators (`db`, `keyStore`, `blockchain`, `transactions`, `headers`, `synchronizer`) are
never reassigned after construction and carry no state of the engine itself. -/
structure Account where
  receiveAddresses : AddressChain
  changeAddresses : AddressChain
  feeTargets : List FeeTarget
  initialSyncDone : Bool
deriving DecidableEq, Repr

/-- The constant `gapLimit`: the gap limit of the receive chain. -/
def gapLimit : Nat := 20

/-- The constant `changeGapLimit`: the gap limit of the change chain. -/
def changeGapLimit : Nat := 6

/-! ## `FeeTargets` -/

/-- The inner loop of `FeeTargets`, `for j := i - 1; j >= 0; j--`, entered with `j + 1` as
third argument.  The result is `true` when the loop leaves through `continue outer`, that is
when some slot below carries a set rate equal to `rate`. -/
def feeRateBelow (feeTargets : List FeeTarget) (rate : Int) : Nat → Bool
  | 0 => false
  | j + 1 =>
    match feeTargets[j]? with
    | none => feeRateBelow feeTargets rate j
    | some checkFeeTarget =>
      match checkFeeTarget.FeeRatePerKb with
      | none => feeRateBelow feeTargets rate j
      | some checkRate =>
        if checkRate = rate then true else feeRateBelow feeTargets rate j

/-- The outer loop of `FeeTargets`, `for i := len(account.feeTargets) - 1; i >= 0; i--`,
entered with `i + 1` as second argument.  The loop state is the slice `feeTargets` built so far
and the flag `defaultAvailable`.  An element of the slice is a pointer into the table: it is kept
as the slot it points to together with the value found there. -/
def feeTargetsLoop (table : List FeeTarget) :
    Nat → List (Nat × FeeTarget) × Bool → List (Nat × FeeTarget) × Bool
  | 0, state => state
  | i + 1, (feeTargets, defaultAvailable) =>
    match table[i]? with
    | none => feeTargetsLoop table i (feeTargets, defaultAvailable)
    | some feeTarget =>
      match feeTarget.FeeRatePerKb with
      | none => feeTargetsLoop table i (feeTargets, defaultAvailable)
      | some rate =>
        if feeRateBelow table rate i then
          feeTargetsLoop table i (feeTargets, defaultAvailable)
        else
          feeTargetsLoop table i
            (feeTargets ++ [(i, feeTarget)],
              if feeTarget.Code = defaultFeeTarget then true else defaultAvailable)

/-- The method `FeeTargets`: the filtered fee targets and the default fee target code. -/
def Account.FeeTargets (account : Account) : List (Nat × FeeTarget) × FeeTargetCode :=
  let result := feeTargetsLoop account.feeTargets account.feeTargets.length ([], false)
  let feeTargets := result.1
  let defaultAvailable := result.2
  let defaultFee :=
    if !defaultAvailable && feeTargets.length != 0 then
      match feeTargets with
      | first :: _ => first.2.Code
      | [] => defaultFeeTarget
    else
      defaultFeeTarget
  (feeTargets, defaultFee)

/-- The slots of the table the returned pointers point to, in the order returned. -/
def Account.feeTargetSlots (account : Account) : List Nat :=
  account.FeeTargets.1.map Prod.fst

/-- The values the returned pointers point to, in the order returned. -/
def Account.feeTargetValues (account : Account) : List FeeTarget :=
  account.FeeTargets.1.map Prod.snd

/-- The fee rates of the returned targets, in the order returned. -/
def Account.feeTargetRates (account : Account) : List Int :=
  account.FeeTargets.1.filterMap fun p => p.2.FeeRatePerKb

/-- An account whose fee-target table is `table` and whose chains are still empty. -/
def accountWithTable (table : List FeeTarget) : Account :=
  { receiveAddresses := { addresses := [], gapLimit := gapLimit }
    changeAddresses := { addresses := [], gapLimit := changeGapLimit }
    feeTargets := table
    initialSyncDone := false }

/-- The table of scenario S4 of the spec. -/
def tableS4 : List FeeTarget :=
  [ { Blocks := 25, Code := FeeTargetCodeEconomy, FeeRatePerKb := some 100 },
    { Blocks := 10, Code := FeeTargetCodeLow, FeeRatePerKb := some 100 },
    { Blocks := 5, Code := FeeTargetCodeNormal, FeeRatePerKb := some 250 },
    { Blocks := 2, Code := FeeTargetCodeHigh, FeeRatePerKb := none } ]

/-- The table of scenario S5 of the spec. -/
def tableS5 : List FeeTarget :=
  [ { Blocks := 25, Code := FeeTargetCodeEconomy, FeeRatePerKb := some 50 },
    { Blocks := 10, Code := FeeTargetCodeLow, FeeRatePerKb := none },
    { Blocks := 5, Code := FeeTargetCodeNormal, FeeRatePerKb := none },
    { Blocks := 2, Code := FeeTargetCodeHigh, FeeRatePerKb := none } ]

/-! ## Collaborators and traces -/

/-- Modelled from the spec: the type `client.TxHistory` is declared outside `account.go`; the
spec gives a history as an ordered list of `(txid, height)` items. -/
abbrev TxHistory := List (String × Int)

/-- A Go `error` value; `none : Option Error` is the nil error. -/
abbrev Error := String

/-- The calls `account.go` makes to its collaborators, with the arguments that identify them.
Calls to the logger are left out. -/
inductive Action where
  /-- The call `account.Lock()`. -/
  | Lock
  /-- The call of the function returned by `account.Lock()`. -/
  | Unlock
  /-- The call `account.RLock()`. -/
  | RLock
  /-- The call of the function returned by `account.RLock()`. -/
  | RUnlock
  /-- The call `account.onEvent(event)`. -/
  | onEvent (event : Event)
  /-- The call `account.synchronizer.IncRequestsCounter()`, which takes one token. -/
  | IncRequestsCounter
  /-- The call of a token `done` by the engine itself, which releases that token. -/
  | done
  /-- The call `account.db.Begin()`. -/
  | dbBegin
  /-- The call `dbTx.Rollback()`. -/
  | dbRollback
  /-- The call `dbTx.AddressHistory(address)`. -/
  | dbAddressHistory (scriptHashHex : String)
  /-- The call `account.addresses(change).EnsureAddresses()` with the addresses it returned. -/
  | EnsureAddresses (change : Bool) (newAddresses : List (AddressRef × Address))
  /-- The call `account.blockchain.ScriptHashSubscribe`; the status callback is bound to
  `address`, the token taken just before is handed over as cleanup. -/
  | ScriptHashSubscribe (scriptHashHex : String) (address : AddressRef)
  /-- The call `account.blockchain.ScriptHashGetHistory`; the reply callback is bound to
  `address` and `status`, the token taken just before is handed over as cleanup. -/
  | ScriptHashGetHistory (scriptHashHex : String) (address : AddressRef) (status : String)
  /-- The call `account.transactions.UpdateAddressHistory(address, history)`. -/
  | UpdateAddressHistory (scriptHashHex : String) (history : TxHistory)
  /-- The call `account.blockchain.EstimateFee`; the reply callback is bound to the fee target
  in slot `feeTarget` of the table. -/
  | EstimateFee (blocks : Nat) (feeTarget : Nat)
  /-- The call `account.blockchain.RelayFee`; the reply callback is `setFee` of the fee target
  in slot `feeTarget`. -/
  | RelayFee (feeTarget : Nat)
  /-- The call `account.blockchain.HeadersSubscribe`. -/
  | HeadersSubscribe
  /-- The call `account.headers.SubscribeEvent`. -/
  | headersSubscribeEvent
  /-- The call `account.transactions.Balance()`. -/
  | transactionsBalance
  /-- The call `account.transactions.Transactions(...)`. -/
  | transactionsTransactions
  /-- The call `account.synchronizer.WaitSynchronized()`. -/
  | WaitSynchronized
  /-- The call `account.receiveAddresses.GetUnused()`. -/
  | GetUnused
  /-- The call `account.headers.Status()`. -/
  | headersStatus
deriving DecidableEq, Repr

open Action

/-- What the collaborators answer.  These functions are parameters of the model: the theorems
hold for every choice of them. -/
structure Environment where
  /-- The method `Status` of `client.TxHistory`. -/
  Status : TxHistory → String
  /-- The script hashes of the addresses that one call of `EnsureAddresses` on the given chain
  of the given branch derives (none when the chain needs no extension). -/
  derive : Bool → AddressChain → List String
  /-- The error of `account.db.Begin()`. -/
  dbBegin : Option Error
  /-- The result of `dbTx.AddressHistory` for the address with the given script hash. -/
  AddressHistory : String → Except Error TxHistory
  /-- The error returned by `blockchain.ScriptHashSubscribe` for the given script hash. -/
  ScriptHashSubscribe : String → Option Error
  /-- The error returned by `blockchain.ScriptHashGetHistory` for the given script hash. -/
  ScriptHashGetHistory : String → Option Error
  /-- The error returned by `blockchain.RelayFee`. -/
  RelayFee : Option Error
  /-- The error returned by `blockchain.HeadersSubscribe`. -/
  HeadersSubscribe : Option Error

/-- Why a handler of the model has no result. -/
inductive Failure where
  /-- The Go code panics. -/
  | panic
  /-- The loop of `syncSequence` has not ended within the fuel given. -/
  | outOfFuel
  /-- The handler was given a pointer to an address or fee target that does not exist in the
  account.  The program never holds such a pointer. -/
  | invalidPointer
deriving DecidableEq, Repr

/-! ## Construction and life cycle -/

/-- Modelled from the spec: `addresses.NewAddressChain` is declared outside `account.go`; a new
chain is empty and awaits its first extension. -/
def NewAddressChain (gapLimit : Nat) : AddressChain :=
  { addresses := [], gapLimit := gapLimit }

/-- The function `NewAccount`.  The argument is the result of `keyStore.ExtendedPublicKey`:
an error, or an extended key of which only `IsPrivate()` matters here. -/
def NewAccount (extendedPublicKey : Except Error Bool) : Except Error (Account × List Action) :=
  match extendedPublicKey with
  | .error _ => .error "Failed to fetch the xPub"
  | .ok isPrivate =>
    if isPrivate then
      .error "Extended key is private! Only public keys are accepted"
    else
      .ok
        ({ feeTargets :=
            [ { Blocks := 25, Code := FeeTargetCodeEconomy, FeeRatePerKb := none },
              { Blocks := 10, Code := FeeTargetCodeLow, FeeRatePerKb := none },
              { Blocks := 5, Code := FeeTargetCodeNormal, FeeRatePerKb := none },
              { Blocks := 2, Code := FeeTargetCodeHigh, FeeRatePerKb := none } ]
           initialSyncDone := false
           receiveAddresses := NewAddressChain gapLimit
           changeAddresses := NewAddressChain changeGapLimit },
          [headersSubscribeEvent])

/-- The first callback given to `NewSynchronizer`, run by the synchronizer when its counter
leaves zero. -/
def Account.onSyncStarted (account : Account) : Account × List Action :=
  (account, [onEvent EventSyncStarted])

/-- The second callback given to `NewSynchronizer`, run by the synchronizer on its idle edge
(its counter returns to zero). -/
def Account.onSyncDone (account : Account) : Account × List Action :=
  let first : Account × List Action :=
    if !account.initialSyncDone then
      ({ account with initialSyncDone := true }, [onEvent EventStatusChanged])
    else
      (account, [])
  (first.1, first.2 ++ [onEvent EventSyncDone])

/-- The callback given to `account.headers.SubscribeEvent`; the argument tells whether the
event is `headers.EventSynced`. -/
def Account.onHeadersEvent (account : Account) (eventSynced : Bool) : Account × List Action :=
  if eventSynced then (account, [onEvent EventHeadersSynced]) else (account, [])

/-- The method `Initialized`. -/
def Account.Initialized (account : Account) : Bool :=
  account.initialSyncDone

/-- The method `Close`. -/
def Account.Close (account : Account) : Account × List Action :=
  ({ account with initialSyncDone := false }, [onEvent EventStatusChanged])

/-! ## Fee estimation -/

/-- The method `updateFeeTargets`: under the read lock, one `EstimateFee` request per fee
target of the table, in table order.  An error returned by `EstimateFee` is only logged. -/
def Account.updateFeeTargets (account : Account) : Account × List Action :=
  (account,
    [RLock] ++ account.feeTargets.enum.map (fun p => EstimateFee p.2.Blocks p.1) ++ [RUnlock])

/-- The closure `setFee` of `updateFeeTargets` for the fee target in slot `feeTarget`. -/
def Account.setFee (account : Account) (feeTarget : Nat) (feeRatePerKb : Int) :
    Except Failure (Account × List Action × Option Error) :=
  match account.feeTargets[feeTarget]? with
  | none => .error Failure.invalidPointer
  | some target =>
    .ok
      ({ account with
          feeTargets :=
            account.feeTargets.set feeTarget { target with FeeRatePerKb := some feeRatePerKb } },
        [Lock, onEvent EventFeeTargetsChanged, Unlock], none)

/-- The reply callback given to `EstimateFee` for the fee target in slot `feeTarget`. -/
def Account.onEstimateFee (env : Environment) (account : Account) (feeTarget : Nat)
    (feeRatePerKb : Option Int) : Except Failure (Account × List Action × Option Error) :=
  match account.feeTargets[feeTarget]? with
  | none => .error Failure.invalidPointer
  | some _ =>
    match feeRatePerKb with
    | none => .ok (account, [RelayFee feeTarget], env.RelayFee)
    | some rate => account.setFee feeTarget rate

/-- The reply callback given to `RelayFee`: `setFee` of the fee target. -/
def Account.onRelayFee (account : Account) (feeTarget : Nat) (feeRatePerKb : Int) :
    Except Failure (Account × List Action × Option Error) :=
  account.setFee feeTarget feeRatePerKb

/-- The method `onNewHeader`. -/
def Account.onNewHeader (account : Account) : Account × List Action × Option Error :=
  let result := account.updateFeeTargets
  (result.1, result.2, none)

/-! ## Addresses -/

/-- The method `addresses`. -/
def Account.addresses (account : Account) (change : Bool) : AddressChain :=
  if change then account.changeAddresses else account.receiveAddresses

/-- Replaces the chain of one branch. -/
def Account.setAddresses (account : Account) (change : Bool) (chain : AddressChain) : Account :=
  if change then { account with changeAddresses := chain }
  else { account with receiveAddresses := chain }

/-- The address a pointer points to. -/
def Account.address (account : Account) (address : AddressRef) : Option Address :=
  (account.addresses address.change).addresses[address.index]?

/-- The assignment `address.HistoryStatus = status` through a pointer. -/
def Account.setHistoryStatus (account : Account) (address : AddressRef) (status : String) :
    Account :=
  let chain := account.addresses address.change
  account.setAddresses address.change
    { chain with
      addresses :=
        chain.addresses.modify (fun a => { a with HistoryStatus := status }) address.index }

/-- Modelled from the spec: `AddressChain.EnsureAddresses` is declared outside `account.go`;
by the spec it returns the newly derived addresses, which the chain appends to its list (an
address is created by its chain and never destroyed).  A new address has an empty
`HistoryStatus`.  Which addresses one call derives is the parameter `env.derive`.  A returned
pointer is kept together with the address it points to. -/
def Account.chainEnsureAddresses (env : Environment) (account : Account) (change : Bool) :
    Account × List (AddressRef × Address) :=
  let chain := account.addresses change
  let derived : List Address :=
    (env.derive change chain).map fun h => { scriptHashHex := h, HistoryStatus := "" }
  (account.setAddresses change { chain with addresses := chain.addresses ++ derived },
    derived.enum.map fun p =>
      ({ change := change, index := chain.addresses.length + p.1 }, p.2))

/-- The method `subscribeAddress`. -/
def Account.subscribeAddress (env : Environment) (account : Account)
    (address : AddressRef × Address) : Account × List Action × Option Error :=
  match env.AddressHistory address.2.scriptHashHex with
  | .error err => (account, [dbAddressHistory address.2.scriptHashHex], some err)
  | .ok addressHistory =>
    (account.setHistoryStatus address.1 (env.Status addressHistory),
      [dbAddressHistory address.2.scriptHashHex, IncRequestsCounter,
        ScriptHashSubscribe address.2.scriptHashHex address.1],
      env.ScriptHashSubscribe address.2.scriptHashHex)

/-- The loop `for _, address := range newAddresses` of `syncSequence`, which returns at the
first error of `subscribeAddress`. -/
def Account.subscribeAddresses (env : Environment) :
    Account → List (AddressRef × Address) → Account × List Action × Option Error
  | account, [] => (account, [], none)
  | account, address :: rest =>
    match account.subscribeAddress env address with
    | (account1, trace1, some err) => (account1, trace1, some err)
    | (account1, trace1, none) =>
      let result := Account.subscribeAddresses env account1 rest
      (result.1, trace1 ++ result.2.1, result.2.2)

/-- The closure `syncSequence` of `ensureAddresses`.  Its `for` loop has no bound in the
source; here it runs for at most `fuel` passes. -/
def Account.syncSequence (env : Environment) (change : Bool) :
    Nat → Account → Except Failure (Account × List Action × Option Error)
  | 0, _ => .error Failure.outOfFuel
  | fuel + 1, account =>
    let pass := account.chainEnsureAddresses env change
    let newAddresses := pass.2
    if newAddresses.length = 0 then
      .ok (pass.1, [EnsureAddresses change newAddresses], none)
    else
      match pass.1.subscribeAddresses env newAddresses with
      | (account1, trace1, some err) =>
        .ok (account1, EnsureAddresses change newAddresses :: trace1, some err)
      | (account1, trace1, none) =>
        match Account.syncSequence env change fuel account1 with
        | .error failure => .error failure
        | .ok (account2, trace2, err) =>
          .ok (account2, EnsureAddresses change newAddresses :: trace1 ++ trace2, err)

/-- The method `ensureAddresses`.  The deferred calls run in reverse order on return:
`dbTx.Rollback()`, the release of the token, the unlock. -/
def Account.ensureAddresses (fuel : Nat) (env : Environment) (account : Account) :
    Except Failure (Account × List Action) :=
  match env.dbBegin with
  | some _ => .error Failure.panic
  | none =>
    match account.syncSequence env false fuel with
    | .error failure => .error failure
    | .ok (_, _, some _) => .error Failure.panic
    | .ok (account1, trace1, none) =>
      match account1.syncSequence env true fuel with
      | .error failure => .error failure
      | .ok (_, _, some _) => .error Failure.panic
      | .ok (account2, trace2, none) =>
        .ok (account2,
          [Lock, IncRequestsCounter, dbBegin] ++ trace1 ++ trace2 ++ [dbRollback, done, Unlock])

/-- The method `onAddressStatus`, the status callback given to `ScriptHashSubscribe`. -/
def Account.onAddressStatus (env : Environment) (account : Account) (address : AddressRef)
    (status : String) : Except Failure (Account × List Action × Option Error) :=
  match account.address address with
  | none => .error Failure.invalidPointer
  | some a =>
    if status = a.HistoryStatus then
      .ok (account, [], none)
    else
      .ok (account, [IncRequestsCounter, ScriptHashGetHistory a.scriptHashHex address status],
        env.ScriptHashGetHistory a.scriptHashHex)

set_option linter.unusedVariables false in
/-- The reply callback given to `ScriptHashGetHistory` by `onAddressStatus address status`.
The comparison of the new `HistoryStatus` with `status` only writes to the log. -/
def Account.onHistory (fuel : Nat) (env : Environment) (account : Account)
    (address : AddressRef) (status : String) (history : TxHistory) :
    Except Failure (Account × List Action × Option Error) :=
  match account.address address with
  | none => .error Failure.invalidPointer
  | some a =>
    let account1 := account.setHistoryStatus address (env.Status history)
    match account1.ensureAddresses fuel env with
    | .error failure => .error failure
    | .ok (account2, trace2) =>
      .ok (account2, [Lock, UpdateAddressHistory a.scriptHashHex history, Unlock] ++ trace2, none)

/-- The method `Init`. -/
def Account.Init (fuel : Nat) (env : Environment) (account : Account) :
    Except Failure (Account × List Action) :=
  match account.ensureAddresses fuel env with
  | .error failure => .error failure
  | .ok (account1, trace1) =>
    match env.HeadersSubscribe with
    | some _ => .error Failure.panic
    | none => .ok (account1, trace1 ++ [HeadersSubscribe])

/-! ## The engine as a transition system -/

/-- What can happen to an account: a call of one of its methods by the host, or a callback run
by one of its collaborators. -/
inductive Input where
  | Init
  | Close
  | Initialized
  | FeeTargets
  | Balance
  | Transactions
  | GetUnusedReceiveAddress
  | KeyStore
  | HeadersStatus
  | onNewHeader
  | onEstimateFee (feeTarget : Nat) (feeRatePerKb : Option Int)
  | onRelayFee (feeTarget : Nat) (feeRatePerKb : Int)
  | onAddressStatus (address : AddressRef) (status : String)
  | onHistory (address : AddressRef) (status : String) (history : TxHistory)
  | onHeadersEvent (eventSynced : Bool)
  | onSyncStarted
  | onSyncDone
deriving DecidableEq, Repr

/-- Drops the returned error of a callback. -/
def dropError (result : Except Failure (Account × List Action × Option Error)) :
    Except Failure (Account × List Action) :=
  match result with
  | .error failure => .error failure
  | .ok (account, trace, _) => .ok (account, trace)

/-- One transition: the new account and the calls made to the collaborators. -/
def Account.step (fuel : Nat) (env : Environment) (account : Account) :
    Input → Except Failure (Account × List Action)
  | Input.Init => account.Init fuel env
  | Input.Close => .ok account.Close
  | Input.Initialized => .ok (account, [])
  | Input.FeeTargets => .ok (account, [])
  | Input.Balance => .ok (account, [transactionsBalance])
  | Input.Transactions => .ok (account, [transactionsTransactions])
  | Input.GetUnusedReceiveAddress => .ok (account, [WaitSynchronized, RLock, GetUnused, RUnlock])
  | Input.KeyStore => .ok (account, [])
  | Input.HeadersStatus => .ok (account, [headersStatus])
  | Input.onNewHeader => .ok (account.onNewHeader.1, account.onNewHeader.2.1)
  | Input.onEstimateFee feeTarget feeRatePerKb =>
    dropError (account.onEstimateFee env feeTarget feeRatePerKb)
  | Input.onRelayFee feeTarget feeRatePerKb => dropError (account.onRelayFee feeTarget feeRatePerKb)
  | Input.onAddressStatus address status => dropError (account.onAddressStatus env address status)
  | Input.onHistory address status history =>
    dropError (account.onHistory fuel env address status history)
  | Input.onHeadersEvent eventSynced => .ok (account.onHeadersEvent eventSynced)
  | Input.onSyncStarted => .ok account.onSyncStarted
  | Input.onSyncDone => .ok account.onSyncDone

/-- A run: the inputs are handled one after the other, each with the answers the collaborators
give at that time. -/
def Account.run (fuel : Nat) : Account → List (Environment × Input) →
    Except Failure (Account × List Action)
  | account, [] => .ok (account, [])
  | account, (env, input) :: rest =>
    match account.step fuel env input with
    | .error failure => .error failure
    | .ok (account1, trace1) =>
      match Account.run fuel account1 rest with
      | .error failure => .error failure
      | .ok (account2, trace2) => .ok (account2, trace1 ++ trace2)

/-! ## A concrete environment -/

/-- Modelled from the spec: the number of addresses at the end of a chain whose history is
empty (a history is empty when its stored status is empty). -/
def unusedTailCount (chain : AddressChain) : Nat :=
  (chain.addresses.reverse.takeWhile fun a => a.HistoryStatus = "").length

/-- A script hash for the address at index `index` of a branch, for the concrete environment
only: the letter of the branch repeated `index + 1` times. -/
def testScriptHash (change : Bool) (index : Nat) : String :=
  String.mk (List.replicate (index + 1) (if change then 'c' else 'r'))

/-- Modelled from the spec: `AddressChain.EnsureAddresses` is declared outside `account.go`;
the chain is extended until the suffix of addresses with an empty history has the length of the
gap limit. -/
def deriveToGapLimit (change : Bool) (chain : AddressChain) : List String :=
  (List.range (chain.gapLimit - unusedTailCount chain)).map fun k =>
    testScriptHash change (chain.addresses.length + k)

/-- A digest for the concrete environment only: empty for the empty history, otherwise the
transaction ids of the history joined by colons. -/
def testStatus (history : TxHistory) : String :=
  String.join (history.map fun item => item.1 ++ ":")

/-- A concrete environment: no collaborator fails, and the store holds one history, for the
receive address at index zero. -/
def testEnvironment : Environment :=
  { Status := testStatus
    derive := deriveToGapLimit
    dbBegin := none
    AddressHistory := fun h => if h = "r" then .ok [("tx1", 7)] else .ok []
    ScriptHashSubscribe := fun _ => none
    ScriptHashGetHistory := fun _ => none
    RelayFee := none
    HeadersSubscribe := none }

/-- An account with small gap limits (two on the receive branch, one on the change branch) and
the fee-target table of `NewAccount`. -/
def smallAccount : Account :=
  { feeTargets :=
      [ { Blocks := 25, Code := FeeTargetCodeEconomy, FeeRatePerKb := none },
        { Blocks := 10, Code := FeeTargetCodeLow, FeeRatePerKb := none },
        { Blocks := 5, Code := FeeTargetCodeNormal, FeeRatePerKb := none },
        { Blocks := 2, Code := FeeTargetCodeHigh, FeeRatePerKb := none } ]
    initialSyncDone := false
    receiveAddresses := NewAddressChain 2
    changeAddresses := NewAddressChain 1 }

/-- The targets the outer loop of `FeeTargets` appends while it walks down from slot `k - 1`
to slot zero, in the order it appends them. -/
def keptBelow (table : List FeeTarget) : Nat → List (Nat × FeeTarget)
  | 0 => []
  | i + 1 =>
    match table[i]? with
    | none => keptBelow table i
    | some feeTarget =>
      match feeTarget.FeeRatePerKb with
      | none => keptBelow table i
      | some rate =>
        if feeRateBelow table rate i then keptBelow table i
        else (i, feeTarget) :: keptBelow table i

/-- The set rates of a table are non-decreasing in table order. -/
def ratesAscending (table : List FeeTarget) : Prop :=
  (table.filterMap fun feeTarget => feeTarget.FeeRatePerKb).Pairwise fun a b => a ≤ b

instance (table : List FeeTarget) : Decidable (ratesAscending table) := by
  unfold ratesAscending
  infer_instance

/-- The table of `NewAccount`: no rate is set yet. -/
def tableUnset : List FeeTarget :=
  [ { Blocks := 25, Code := FeeTargetCodeEconomy, FeeRatePerKb := none },
    { Blocks := 10, Code := FeeTargetCodeLow, FeeRatePerKb := none },
    { Blocks := 5, Code := FeeTargetCodeNormal, FeeRatePerKb := none },
    { Blocks := 2, Code := FeeTargetCodeHigh, FeeRatePerKb := none } ]

/-- A table in which only the two lowest priorities have an estimate. -/
def tableEconomyLow : List FeeTarget :=
  [ { Blocks := 25, Code := FeeTargetCodeEconomy, FeeRatePerKb := some 50 },
    { Blocks := 10, Code := FeeTargetCodeLow, FeeRatePerKb := some 60 },
    { Blocks := 5, Code := FeeTargetCodeNormal, FeeRatePerKb := none },
    { Blocks := 2, Code := FeeTargetCodeHigh, FeeRatePerKb := none } ]

/-- A table in which the estimate for the lower priority is the larger one. -/
def tableInverted : List FeeTarget :=
  [ { Blocks := 25, Code := FeeTargetCodeEconomy, FeeRatePerKb := some 200 },
    { Blocks := 10, Code := FeeTargetCodeLow, FeeRatePerKb := some 100 },
    { Blocks := 5, Code := FeeTargetCodeNormal, FeeRatePerKb := none },
    { Blocks := 2, Code := FeeTargetCodeHigh, FeeRatePerKb := none } ]

/-- The calls of one `subscribeAddress` that returns no error. -/
def subscribeTrace (address : AddressRef × Address) : List Action :=
  [dbAddressHistory address.2.scriptHashHex, IncRequestsCounter,
    ScriptHashSubscribe address.2.scriptHashHex address.1]

/-- The calls of one `syncSequence` whose calls of `EnsureAddresses` returned the non-empty
lists `passes`, one after the other, and then the empty list: every list returned is followed
by the subscription of its addresses, in the order returned. -/
def branchTrace (change : Bool) (passes : List (List (AddressRef × Address))) : List Action :=
  (passes.flatMap fun newAddresses =>
      EnsureAddresses change newAddresses :: newAddresses.flatMap subscribeTrace) ++
    [EnsureAddresses change []]

/-- The account `smallAccount` after its first address discovery in `testEnvironment`: three
receive addresses, the first of which has a history, and one change address. -/
def syncedSmallAccount : Account :=
  { smallAccount with
    receiveAddresses :=
      { addresses :=
          [ { scriptHashHex := "r", HistoryStatus := "tx1:" },
            { scriptHashHex := "rr", HistoryStatus := "" },
            { scriptHashHex := "rrr", HistoryStatus := "" } ]
        gapLimit := 2 }
    changeAddresses :=
      { addresses := [ { scriptHashHex := "c", HistoryStatus := "" } ]
        gapLimit := 1 } }

/-- A run for the concrete environment: the account is initialised, a status and the reply
to the history request it causes are delivered, fee estimates arrive, and the host queries and
closes the account.  The synchronizer raises no idle edge. -/
def testInputs : List (Environment × Input) :=
  [ (testEnvironment, Input.Init),
    (testEnvironment, Input.onSyncStarted),
    (testEnvironment, Input.onAddressStatus { change := false, index := 1 } "tx2:"),
    (testEnvironment, Input.onHistory { change := false, index := 1 } "tx2:" [("tx2", 9)]),
    (testEnvironment, Input.onNewHeader),
    (testEnvironment, Input.onEstimateFee 2 (some 250)),
    (testEnvironment, Input.onEstimateFee 0 none),
    (testEnvironment, Input.onRelayFee 0 100),
    (testEnvironment, Input.FeeTargets),
    (testEnvironment, Input.Initialized),
    (testEnvironment, Input.Balance),
    (testEnvironment, Input.Close) ]

/-! ## Lemmas on `FeeTargets` -/

theorem feeRateBelow_iff (table : List FeeTarget) (rate : Int) (k : Nat) :
    feeRateBelow table rate k = true ↔
      ∃ j feeTarget, j < k ∧ table[j]? = some feeTarget ∧ feeTarget.FeeRatePerKb = some rate := by
  induction k with
  | zero => simp [feeRateBelow]
  | succ k ih =>
    have step : ∀ P : Nat → Prop, (∃ j, j < k + 1 ∧ P j) ↔ (P k ∨ ∃ j, j < k ∧ P j) := by
      intro P
      constructor
      · rintro ⟨j, hj, hP⟩
        rcases Nat.lt_succ_iff_lt_or_eq.mp hj with h | h
        · exact Or.inr ⟨j, h, hP⟩
        · exact Or.inl (h ▸ hP)
      · rintro (hP | ⟨j, hj, hP⟩)
        · exact ⟨k, Nat.lt_succ_self k, hP⟩
        · exact ⟨j, Nat.lt_succ_of_lt hj, hP⟩
    have split :
        (∃ j feeTarget, j < k + 1 ∧ table[j]? = some feeTarget ∧
            feeTarget.FeeRatePerKb = some rate) ↔
          ((∃ feeTarget, table[k]? = some feeTarget ∧ feeTarget.FeeRatePerKb = some rate) ∨
            ∃ j feeTarget, j < k ∧ table[j]? = some feeTarget ∧
              feeTarget.FeeRatePerKb = some rate) := by
      have := step fun j => ∃ feeTarget, table[j]? = some feeTarget ∧
        feeTarget.FeeRatePerKb = some rate
      constructor
      · rintro ⟨j, ft, hj, h1, h2⟩
        rcases this.mp ⟨j, hj, ft, h1, h2⟩ with h | ⟨j, hj, ft, h1, h2⟩
        · exact Or.inl h
        · exact Or.inr ⟨j, ft, hj, h1, h2⟩
      · rintro (⟨ft, h1, h2⟩ | ⟨j, ft, hj, h1, h2⟩)
        · exact ⟨k, ft, Nat.lt_succ_self k, h1, h2⟩
        · exact ⟨j, ft, Nat.lt_succ_of_lt hj, h1, h2⟩
    rw [split, ← ih]
    simp only [feeRateBelow]
    cases hk : table[k]? with
    | none => simp
    | some ft =>
      cases hr : ft.FeeRatePerKb with
      | none => simp [hr]
      | some r =>
        by_cases hrr : r = rate
        · simp [hr, hrr]
        · simp [hr, hrr]

theorem feeTargetsLoop_eq (table : List FeeTarget) (k : Nat) (feeTargets : List (Nat × FeeTarget))
    (defaultAvailable : Bool) :
    feeTargetsLoop table k (feeTargets, defaultAvailable) =
      (feeTargets ++ keptBelow table k,
        defaultAvailable || (keptBelow table k).any fun p => decide (p.2.Code = defaultFeeTarget)) := by
  induction k generalizing feeTargets defaultAvailable with
  | zero => simp [feeTargetsLoop, keptBelow]
  | succ k ih =>
    simp only [feeTargetsLoop, keptBelow]
    cases hk : table[k]? with
    | none => simp [ih]
    | some ft =>
      cases hr : ft.FeeRatePerKb with
      | none => simp [hr, ih]
      | some r =>
        by_cases hb : feeRateBelow table r k = true
        · simp [hr, hb, ih]
        · simp only [hr, hb, if_false, ih, Bool.false_eq_true]
          by_cases hc : ft.Code = defaultFeeTarget
          · simp [hc]
          · simp [hc]

theorem mem_keptBelow (table : List FeeTarget) (k : Nat) (p : Nat × FeeTarget) :
    p ∈ keptBelow table k ↔
      p.1 < k ∧ table[p.1]? = some p.2 ∧
        ∃ rate, p.2.FeeRatePerKb = some rate ∧ feeRateBelow table rate p.1 = false := by
  induction k with
  | zero => simp [keptBelow]
  | succ k ih =>
    have lt_split : p.1 < k + 1 ↔ (p.1 = k ∨ p.1 < k) := by omega
    simp only [keptBelow]
    cases hk : table[k]? with
    | none =>
      simp only [ih, lt_split]
      constructor
      · rintro ⟨h1, h2, h3⟩
        exact ⟨Or.inr h1, h2, h3⟩
      · rintro ⟨h1 | h1, h2, h3⟩
        · rw [h1, hk] at h2
          exact absurd h2 (by simp)
        · exact ⟨h1, h2, h3⟩
    | some ft =>
      cases hr : ft.FeeRatePerKb with
      | none =>
        simp only [hr, ih, lt_split]
        constructor
        · rintro ⟨h1, h2, h3⟩
          exact ⟨Or.inr h1, h2, h3⟩
        · rintro ⟨h1 | h1, h2, r, h3, h4⟩
          · rw [h1, hk] at h2
            have : ft = p.2 := by simpa using h2
            rw [← this, hr] at h3
            exact absurd h3 (by simp)
          · exact ⟨h1, h2, r, h3, h4⟩
      | some r =>
        by_cases hb : feeRateBelow table r k = true
        · simp only [hr, hb, if_true, ih, lt_split]
          constructor
          · rintro ⟨h1, h2, h3⟩
            exact ⟨Or.inr h1, h2, h3⟩
          · rintro ⟨h1 | h1, h2, r2, h3, h4⟩
            · rw [h1, hk] at h2
              have : ft = p.2 := by simpa using h2
              rw [← this, hr] at h3
              have : r = r2 := by simpa using h3
              rw [h1, ← this, hb] at h4
              exact absurd h4 (by simp)
            · exact ⟨h1, h2, r2, h3, h4⟩
        · simp only [hr, hb, if_false, List.mem_cons, ih, lt_split, Bool.false_eq_true]
          constructor
          · rintro (h | ⟨h1, h2, h3⟩)
            · subst h
              exact ⟨Or.inl rfl, hk, r, hr, by simpa using hb⟩
            · exact ⟨Or.inr h1, h2, h3⟩
          · rintro ⟨h1 | h1, h2, h3⟩
            · left
              rw [h1, hk] at h2
              have : ft = p.2 := by simpa using h2
              exact Prod.ext h1 this.symm
            · exact Or.inr ⟨h1, h2, h3⟩

theorem keptBelow_pairwise (table : List FeeTarget) (k : Nat) :
    (keptBelow table k).Pairwise fun p q => q.1 < p.1 := by
  induction k with
  | zero => simp [keptBelow]
  | succ k ih =>
    simp only [keptBelow]
    cases hk : table[k]? with
    | none => simpa using ih
    | some ft =>
      cases hr : ft.FeeRatePerKb with
      | none => simpa [hr] using ih
      | some r =>
        by_cases hb : feeRateBelow table r k = true
        · simpa [hr, hb] using ih
        · simp only [hr, hb, if_false, List.pairwise_cons, Bool.false_eq_true]
          exact ⟨fun q hq => ((mem_keptBelow table k q).mp hq).1, ih⟩

theorem keptBelow_sublist (table : List FeeTarget) (k : Nat) :
    ((keptBelow table k).map Prod.snd).Sublist (table.take k).reverse := by
  induction k with
  | zero => simp [keptBelow]
  | succ k ih =>
    simp only [keptBelow]
    cases hk : table[k]? with
    | none =>
      have hlen : table.length ≤ k := by
        rcases Nat.lt_or_ge k table.length with h | h
        · rw [List.getElem?_eq_getElem h] at hk
          exact absurd hk (by simp)
        · exact h
      have e1 : table.take (k + 1) = table := List.take_of_length_le (by omega)
      have e2 : table.take k = table := List.take_of_length_le hlen
      simp only [e1]
      rw [e2] at ih
      exact ih
    | some ft =>
      have hlt : k < table.length := by
        rcases Nat.lt_or_ge k table.length with h | h
        · exact h
        · rw [List.getElem?_eq_none h] at hk
          exact absurd hk (by simp)
      have e1 : table.take (k + 1) = table.take k ++ [ft] := by
        rw [List.take_succ, hk]
        rfl
      have e2 : (table.take (k + 1)).reverse = ft :: (table.take k).reverse := by
        rw [e1]
        simp
      rw [e2]
      cases hr : ft.FeeRatePerKb with
      | none =>
        simp only [hr]
        exact List.Sublist.cons _ ih
      | some r =>
        by_cases hb : feeRateBelow table r k = true
        · simp only [hr, hb, if_true]
          exact List.Sublist.cons _ ih
        · simp only [hr, hb, if_false, List.map_cons, Bool.false_eq_true]
          exact List.Sublist.cons₂ _ ih

theorem FeeTargets_fst (account : Account) :
    account.FeeTargets.1 = keptBelow account.feeTargets account.feeTargets.length := by
  simp [Account.FeeTargets, feeTargetsLoop_eq]

theorem keptBelow_distinct (table : List FeeTarget) (k : Nat) :
    (keptBelow table k).Pairwise fun p q =>
      q.1 < p.1 ∧ p.2.FeeRatePerKb ≠ q.2.FeeRatePerKb := by
  refine List.Pairwise.imp_of_mem ?_ (keptBelow_pairwise table k)
  intro p q hp hq hlt
  refine ⟨hlt, fun heq => ?_⟩
  obtain ⟨_, _, rate, hrate, hbelow⟩ := (mem_keptBelow table k p).mp hp
  obtain ⟨_, hq2, _⟩ := (mem_keptBelow table k q).mp hq
  have : feeRateBelow table rate p.1 = true :=
    (feeRateBelow_iff table rate p.1).mpr ⟨q.1, q.2, hlt, hq2, by rw [← heq, hrate]⟩
  rw [hbelow] at this
  exact absurd this (by simp)

theorem exists_first_with_rate (table : List FeeTarget) (rate : Int) :
    ∀ (i : Nat) (feeTarget : FeeTarget), table[i]? = some feeTarget →
      feeTarget.FeeRatePerKb = some rate →
      ∃ first firstTarget, first ≤ i ∧ table[first]? = some firstTarget ∧
        firstTarget.FeeRatePerKb = some rate ∧ feeRateBelow table rate first = false := by
  intro i
  induction i using Nat.strong_induction_on with
  | _ i ih =>
    intro feeTarget hi hrate
    cases hb : feeRateBelow table rate i with
    | false => exact ⟨i, feeTarget, le_refl i, hi, hrate, hb⟩
    | true =>
      obtain ⟨j, t, hj, hjt, hjr⟩ := (feeRateBelow_iff table rate i).mp hb
      obtain ⟨first, firstTarget, hle, h1, h2, h3⟩ := ih j hj t hjt hjr
      exact ⟨first, firstTarget, by omega, h1, h2, h3⟩

theorem filter_eq_singleton {α β : Type} [DecidableEq β] (f : α → β) :
    ∀ (l : List α) (x : α), (l.map f).Nodup → x ∈ l →
      l.filter (fun y => decide (f y = f x)) = [x] := by
  intro l
  induction l with
  | nil => intro x _ hx; simp at hx
  | cons a t ih =>
    intro x hnd hx
    rw [List.map_cons, List.nodup_cons] at hnd
    obtain ⟨hna, hnt⟩ := hnd
    rcases List.mem_cons.mp hx with hxa | hxt
    · subst hxa
      have : t.filter (fun y => decide (f y = f x)) = [] := by
        rw [List.filter_eq_nil_iff]
        intro y hy
        simp only [decide_eq_true_eq]
        intro hfy
        exact hna (hfy ▸ List.mem_map_of_mem f hy)
      simp [List.filter_cons, this]
    · have hne : ¬ f a = f x := fun h => hna (h ▸ List.mem_map_of_mem f hxt)
      simp [List.filter_cons, hne, ih x hnt hxt]

theorem FeeTargets_rates_nodup (account : Account) :
    (account.FeeTargets.1.map fun p => p.2.FeeRatePerKb).Nodup := by
  rw [FeeTargets_fst, List.Nodup, List.pairwise_map]
  exact (keptBelow_distinct _ _).imp fun h => h.2

theorem mem_FeeTargets (account : Account) (p : Nat × FeeTarget) :
    p ∈ account.FeeTargets.1 ↔
      account.feeTargets[p.1]? = some p.2 ∧
        ∃ rate, p.2.FeeRatePerKb = some rate ∧ feeRateBelow account.feeTargets rate p.1 = false := by
  rw [FeeTargets_fst, mem_keptBelow]
  constructor
  · rintro ⟨_, h2, h3⟩
    exact ⟨h2, h3⟩
  · rintro ⟨h2, h3⟩
    refine ⟨?_, h2, h3⟩
    rcases Nat.lt_or_ge p.1 account.feeTargets.length with h | h
    · exact h
    · rw [List.getElem?_eq_none h] at h2
      exact absurd h2 (by simp)

theorem FeeTargets_snd (account : Account) :
    account.FeeTargets.2 =
      match account.FeeTargets.1 with
      | first :: _ =>
        if (account.FeeTargets.1.any fun p => decide (p.2.Code = defaultFeeTarget)) then
          defaultFeeTarget
        else first.2.Code
      | [] => defaultFeeTarget := by
  simp only [Account.FeeTargets, feeTargetsLoop_eq, List.nil_append, Bool.false_or]
  cases keptBelow account.feeTargets account.feeTargets.length with
  | nil => rfl
  | cons a t =>
    cases h : (a :: t).any fun p => decide (p.2.Code = defaultFeeTarget) <;> simp

theorem FeeTargets_first_with_rate (account : Account) (i : Nat) (feeTarget : FeeTarget)
    (rate : Int) (hi : account.feeTargets[i]? = some feeTarget)
    (hrate : feeTarget.FeeRatePerKb = some rate) :
    ∃ first firstTarget, first ≤ i ∧ account.feeTargets[first]? = some firstTarget ∧
      firstTarget.FeeRatePerKb = some rate ∧
      (∀ k < first, ∀ t, account.feeTargets[k]? = some t → t.FeeRatePerKb ≠ some rate) ∧
      account.FeeTargets.1.filter (fun p => decide (p.2.FeeRatePerKb = some rate)) =
        [(first, firstTarget)] := by
  obtain ⟨first, firstTarget, hle, h1, h2, h3⟩ :=
    exists_first_with_rate account.feeTargets rate i feeTarget hi hrate
  refine ⟨first, firstTarget, hle, h1, h2, ?_, ?_⟩
  · intro k hk t hkt hkr
    have : feeRateBelow account.feeTargets rate first = true :=
      (feeRateBelow_iff _ _ _).mpr ⟨k, t, hk, hkt, hkr⟩
    rw [h3] at this
    exact absurd this (by simp)
  · have hmem : (first, firstTarget) ∈ account.FeeTargets.1 :=
      (mem_FeeTargets account (first, firstTarget)).mpr ⟨h1, rate, h2, h3⟩
    have := filter_eq_singleton (fun p : Nat × FeeTarget => p.2.FeeRatePerKb)
      account.FeeTargets.1 (first, firstTarget) (FeeTargets_rates_nodup account) hmem
    simpa [h2] using this

theorem not_mem_slots_of_lower (account : Account) (i j : Nat) (ti tj : FeeTarget) (rate : Int)
    (hij : i < j) (hi : account.feeTargets[i]? = some ti)
    (hj : account.feeTargets[j]? = some tj) (hri : ti.FeeRatePerKb = some rate)
    (hrj : tj.FeeRatePerKb = some rate) : j ∉ account.feeTargetSlots := by
  intro hmem
  obtain ⟨p, hp, hpj⟩ := List.mem_map.mp hmem
  obtain ⟨h1, r, h2, h3⟩ := (mem_FeeTargets account p).mp hp
  rw [hpj, hj] at h1
  have e : tj = p.2 := by simpa using h1
  rw [← e, hrj] at h2
  have e2 : rate = r := by simpa using h2
  have : feeRateBelow account.feeTargets r p.1 = true :=
    (feeRateBelow_iff _ _ _).mpr ⟨i, ti, hpj ▸ hij, hi, e2 ▸ hri⟩
  rw [h3] at this
  exact absurd this (by simp)

/-! ## The claims on `FeeTargets` -/

/-- C1, as stated, fails: in the table of scenario S4 the slots 0 (Economy) and 1 (Low) carry
the same set rate 100, and `FeeTargets` returns the slots 2 and 0: the lower-priority target of
the two is the one returned, the higher-priority one is the one dropped. -/
theorem FeeTargets_keeps_higher_priority_counterexample :
    (accountWithTable tableS4).feeTargets[0]? =
        some { Blocks := 25, Code := FeeTargetCodeEconomy, FeeRatePerKb := some 100 } ∧
      (accountWithTable tableS4).feeTargets[1]? =
        some { Blocks := 10, Code := FeeTargetCodeLow, FeeRatePerKb := some 100 } ∧
      (accountWithTable tableS4).feeTargetSlots = [2, 0] ∧
      ¬ (1 ∈ (accountWithTable tableS4).feeTargetSlots ∧
          0 ∉ (accountWithTable tableS4).feeTargetSlots) := by
  decide

/-- C1, amended: when two targets of the table have the same set fee rate, the higher-priority
one (the one later in the table) is not in the list returned by `FeeTargets`; of all targets
with that rate exactly one is returned, the first of the table (the one of lowest priority). -/
theorem FeeTargets_keeps_lowest_priority (account : Account) (i j : Nat) (ti tj : FeeTarget)
    (rate : Int) (hij : i < j) (hi : account.feeTargets[i]? = some ti)
    (hj : account.feeTargets[j]? = some tj) (hri : ti.FeeRatePerKb = some rate)
    (hrj : tj.FeeRatePerKb = some rate) :
    j ∉ account.feeTargetSlots ∧
      ∃ first firstTarget, first ≤ i ∧ account.feeTargets[first]? = some firstTarget ∧
        firstTarget.FeeRatePerKb = some rate ∧
        (∀ k < first, ∀ t, account.feeTargets[k]? = some t → t.FeeRatePerKb ≠ some rate) ∧
        account.FeeTargets.1.filter (fun p => decide (p.2.FeeRatePerKb = some rate)) =
          [(first, firstTarget)] :=
  ⟨not_mem_slots_of_lower account i j ti tj rate hij hi hj hri hrj,
    FeeTargets_first_with_rate account i ti rate hi hri⟩

/-- C1, amended, at the table of scenario S4 with the slots 0 and 1. -/
theorem FeeTargets_keeps_lowest_priority_witness :
    1 ∉ (accountWithTable tableS4).feeTargetSlots ∧
      ∃ first firstTarget, first ≤ 0 ∧
        (accountWithTable tableS4).feeTargets[first]? = some firstTarget ∧
        firstTarget.FeeRatePerKb = some 100 ∧
        (∀ k < first, ∀ t, (accountWithTable tableS4).feeTargets[k]? = some t →
          t.FeeRatePerKb ≠ some 100) ∧
        (accountWithTable tableS4).FeeTargets.1.filter
            (fun p => decide (p.2.FeeRatePerKb = some 100)) =
          [(first, firstTarget)] :=
  FeeTargets_keeps_lowest_priority (accountWithTable tableS4) 0 1
    { Blocks := 25, Code := FeeTargetCodeEconomy, FeeRatePerKb := some 100 }
    { Blocks := 10, Code := FeeTargetCodeLow, FeeRatePerKb := some 100 }
    100 (by decide) rfl rfl rfl rfl

/-- C2, as stated, fails: for the table of scenario S4 `FeeTargets` returns Normal at 250
before Economy at 100, which is not the list Economy, Normal of the claim and is not a
subsequence of the table in table order. -/
theorem FeeTargets_ascending_order_counterexample :
    (accountWithTable tableS4).FeeTargets =
        ([(2, { Blocks := 5, Code := FeeTargetCodeNormal, FeeRatePerKb := some 250 }),
          (0, { Blocks := 25, Code := FeeTargetCodeEconomy, FeeRatePerKb := some 100 })],
          FeeTargetCodeNormal) ∧
      (accountWithTable tableS4).feeTargetValues ≠
        [{ Blocks := 25, Code := FeeTargetCodeEconomy, FeeRatePerKb := some 100 },
          { Blocks := 5, Code := FeeTargetCodeNormal, FeeRatePerKb := some 250 }] ∧
      ¬ (accountWithTable tableS4).feeTargetValues.Sublist (accountWithTable tableS4).feeTargets := by
  decide

/-- C2, amended: the list returned by `FeeTargets` is a subsequence of the table read
backwards, from the last slot to the first: the slots of the returned targets strictly decrease,
so that for a table sorted by ascending priority the codes appear in descending-priority order.
The table of scenario S4 yields exactly Normal at 250, Economy at 100, with default Normal. -/
theorem FeeTargets_descending_order (account : Account) :
    account.feeTargetValues.Sublist account.feeTargets.reverse ∧
      account.feeTargetSlots.Pairwise (fun a b => b < a) ∧
      (accountWithTable tableS4).FeeTargets =
        ([(2, { Blocks := 5, Code := FeeTargetCodeNormal, FeeRatePerKb := some 250 }),
          (0, { Blocks := 25, Code := FeeTargetCodeEconomy, FeeRatePerKb := some 100 })],
          FeeTargetCodeNormal) := by
  refine ⟨?_, ?_, by decide⟩
  · have h := keptBelow_sublist account.feeTargets account.feeTargets.length
    rw [List.take_length] at h
    simpa [Account.feeTargetValues, FeeTargets_fst] using h
  · rw [Account.feeTargetSlots, FeeTargets_fst, List.pairwise_map]
    exact keptBelow_pairwise _ _

/-- C3, as stated, fails in two places.  With no rate set the filtered list is empty and the
second result is still the code Normal, not an absent default.  With only Economy at 50 and Low
at 60 set, the filtered list is Low, Economy and the second result is Low, the code of the
first returned target, while the lowest-priority target of the filtered list is Economy. -/
theorem FeeTargets_default_counterexample :
    (accountWithTable tableUnset).FeeTargets = ([], FeeTargetCodeNormal) ∧
      (accountWithTable tableEconomyLow).FeeTargets =
        ([(1, { Blocks := 10, Code := FeeTargetCodeLow, FeeRatePerKb := some 60 }),
          (0, { Blocks := 25, Code := FeeTargetCodeEconomy, FeeRatePerKb := some 50 })],
          FeeTargetCodeLow) := by
  decide

/-- C3, amended: the second result of `FeeTargets` is Normal if a Normal target is in the
filtered list, and it is Normal as well when the filtered list is empty; otherwise it is the code
of a target of the filtered list.  The table of scenario S5 yields the filtered list Economy at
50 and the default Economy. -/
theorem FeeTargets_default (account : Account) :
    ((∃ p ∈ account.FeeTargets.1, p.2.Code = FeeTargetCodeNormal) →
        account.FeeTargets.2 = FeeTargetCodeNormal) ∧
      (account.FeeTargets.1 = [] → account.FeeTargets.2 = FeeTargetCodeNormal) ∧
      ((¬ ∃ p ∈ account.FeeTargets.1, p.2.Code = FeeTargetCodeNormal) →
        account.FeeTargets.1 ≠ [] → ∃ p ∈ account.FeeTargets.1, account.FeeTargets.2 = p.2.Code) ∧
      (accountWithTable tableS5).FeeTargets =
        ([(0, { Blocks := 25, Code := FeeTargetCodeEconomy, FeeRatePerKb := some 50 })],
          FeeTargetCodeEconomy) := by
  have hsnd := FeeTargets_snd account
  refine ⟨?_, ?_, ?_, by decide⟩
  · rintro ⟨p, hp, hcode⟩
    have hany : (account.FeeTargets.1.any fun p => decide (p.2.Code = defaultFeeTarget)) = true :=
      List.any_eq_true.mpr ⟨p, hp, by simpa [defaultFeeTarget] using hcode⟩
    rw [hsnd]
    cases hl : account.FeeTargets.1 with
    | nil => rfl
    | cons a t =>
      rw [hl] at hany
      simp only [hany, if_true]
      rfl
  · intro hnil
    rw [hsnd, hnil]
    rfl
  · intro hno hne
    rw [hsnd]
    cases hl : account.FeeTargets.1 with
    | nil => exact absurd hl hne
    | cons a t =>
      have hany : ((a :: t).any fun p => decide (p.2.Code = defaultFeeTarget)) = false := by
        rw [Bool.eq_false_iff]
        intro h
        obtain ⟨q, hq, hc⟩ := List.any_eq_true.mp h
        exact hno ⟨q, hl ▸ hq, by simpa [defaultFeeTarget] using hc⟩
      simp only [hany]
      exact ⟨a, List.mem_cons_self a t, by simp⟩

/-- C3, amended, at three tables: scenario S4 (Normal is in the filtered list), the table of a
new account (empty filtered list) and scenario S5 (only Economy is in the filtered list). -/
theorem FeeTargets_default_witness :
    (accountWithTable tableS4).FeeTargets.2 = FeeTargetCodeNormal ∧
      (accountWithTable tableUnset).FeeTargets.2 = FeeTargetCodeNormal ∧
      ∃ p ∈ (accountWithTable tableS5).FeeTargets.1,
        (accountWithTable tableS5).FeeTargets.2 = p.2.Code :=
  ⟨(FeeTargets_default (accountWithTable tableS4)).1 (by decide),
    (FeeTargets_default (accountWithTable tableUnset)).2.1 (by decide),
    (FeeTargets_default (accountWithTable tableS5)).2.2.1 (by decide) (by decide)⟩

/-- C4, as stated, fails: for the table of scenario S4 the rates of the returned list are 250,
100, which is not strictly increasing.  Nor is the order of the rates fixed the other way round:
for a table with Economy at 200 and Low at 100 the returned rates are 100, 200. -/
theorem FeeTargets_rates_increasing_counterexample :
    (accountWithTable tableS4).feeTargetRates = [250, 100] ∧
      ¬ (accountWithTable tableS4).feeTargetRates.Pairwise (fun a b => a < b) ∧
      (accountWithTable tableInverted).feeTargetRates = [100, 200] ∧
      ¬ (accountWithTable tableInverted).feeTargetRates.Pairwise (fun a b => b < a) := by
  decide

/-- C4, amended: for every fee-target table the fee rates of the list returned by `FeeTargets`
are pairwise distinct; when the set rates of the table are non-decreasing in table order, the
returned rates, read in the order returned, are strictly decreasing. -/
theorem FeeTargets_rates_distinct_decreasing (account : Account) :
    account.feeTargetRates.Nodup ∧
      (ratesAscending account.feeTargets →
        account.feeTargetRates.Pairwise fun a b => b < a) := by
  have hnd : account.feeTargetRates.Pairwise fun a b => a ≠ b := by
    rw [Account.feeTargetRates, List.pairwise_filterMap, FeeTargets_fst]
    refine (keptBelow_distinct _ _).imp ?_
    rintro p q ⟨_, hne⟩ b hb b2 hb2 hbb
    apply hne
    rw [Option.mem_def] at hb hb2
    rw [hb, hb2, hbb]
  refine ⟨hnd, fun hasc => ?_⟩
  have hsub : account.feeTargetRates.Sublist
      (account.feeTargets.filterMap fun feeTarget => feeTarget.FeeRatePerKb).reverse := by
    have h := keptBelow_sublist account.feeTargets account.feeTargets.length
    rw [List.take_length] at h
    have h2 := h.filterMap fun feeTarget : FeeTarget => feeTarget.FeeRatePerKb
    rw [List.filterMap_map, List.filterMap_reverse] at h2
    simpa [Account.feeTargetRates, FeeTargets_fst, Function.comp_def] using h2
  have hge : account.feeTargetRates.Pairwise fun a b => b ≤ a :=
    List.Pairwise.sublist hsub (List.pairwise_reverse.mpr hasc)
  exact (hnd.and hge).imp fun h => lt_of_le_of_ne h.2 (Ne.symm h.1)

/-- C4, amended, at the table of scenario S4, whose set rates 100, 100, 250 are
non-decreasing. -/
theorem FeeTargets_rates_distinct_decreasing_witness :
    ratesAscending (accountWithTable tableS4).feeTargets ∧
      (accountWithTable tableS4).feeTargetRates.Pairwise fun a b => b < a :=
  ⟨by decide, (FeeTargets_rates_distinct_decreasing (accountWithTable tableS4)).2 (by decide)⟩

/-- C10: for every fee-target table, the list returned by `FeeTargets` contains only targets
of the table with a set rate; its rates are pairwise distinct; every set rate of the table is
the rate of exactly one returned target, which is the first table entry with that rate; the
slots of the returned targets strictly decrease; and the call leaves the account, with its
table, as it was. -/
theorem FeeTargets_characterisation (account : Account) :
    (∀ p ∈ account.FeeTargets.1,
        account.feeTargets[p.1]? = some p.2 ∧ p.2.FeeRatePerKb ≠ none) ∧
      (account.FeeTargets.1.map fun p => p.2.FeeRatePerKb).Nodup ∧
      (∀ i feeTarget rate, account.feeTargets[i]? = some feeTarget →
        feeTarget.FeeRatePerKb = some rate →
        ∃ first firstTarget, first ≤ i ∧ account.feeTargets[first]? = some firstTarget ∧
          firstTarget.FeeRatePerKb = some rate ∧
          (∀ k < first, ∀ t, account.feeTargets[k]? = some t → t.FeeRatePerKb ≠ some rate) ∧
          account.FeeTargets.1.filter (fun p => decide (p.2.FeeRatePerKb = some rate)) =
            [(first, firstTarget)]) ∧
      account.feeTargetSlots.Pairwise (fun a b => b < a) ∧
      ∀ fuel env, account.step fuel env Input.FeeTargets = .ok (account, []) := by
  refine ⟨?_, FeeTargets_rates_nodup account, ?_, ?_, fun _ _ => rfl⟩
  · intro p hp
    obtain ⟨h1, rate, h2, _⟩ := (mem_FeeTargets account p).mp hp
    exact ⟨h1, by simp [h2]⟩
  · intro i feeTarget rate hi hrate
    exact FeeTargets_first_with_rate account i feeTarget rate hi hrate
  · rw [Account.feeTargetSlots, FeeTargets_fst, List.pairwise_map]
    exact keptBelow_pairwise _ _

/-- C10 at the table of scenario S4: the rate 100 of slot 1 (Low) is the rate of exactly one
returned target, which points to the first slot with that rate. -/
theorem FeeTargets_characterisation_witness :
    ∃ first firstTarget, first ≤ 1 ∧
      (accountWithTable tableS4).feeTargets[first]? = some firstTarget ∧
      firstTarget.FeeRatePerKb = some 100 ∧
      (∀ k < first, ∀ t, (accountWithTable tableS4).feeTargets[k]? = some t →
        t.FeeRatePerKb ≠ some 100) ∧
      (accountWithTable tableS4).FeeTargets.1.filter
          (fun p => decide (p.2.FeeRatePerKb = some 100)) =
        [(first, firstTarget)] :=
  (FeeTargets_characterisation (accountWithTable tableS4)).2.2.1 1
    { Blocks := 10, Code := FeeTargetCodeLow, FeeRatePerKb := some 100 } 100 rfl rfl

/-! ## Lemmas on the address chains -/

theorem addresses_setAddresses (account : Account) (c1 c2 : Bool) (chain : AddressChain) :
    (account.setAddresses c1 chain).addresses c2 =
      if c2 = c1 then chain else account.addresses c2 := by
  cases c1 <;> cases c2 <;> simp [Account.setAddresses, Account.addresses]

theorem flags_setAddresses (account : Account) (c : Bool) (chain : AddressChain) :
    (account.setAddresses c chain).initialSyncDone = account.initialSyncDone ∧
      (account.setAddresses c chain).feeTargets = account.feeTargets := by
  cases c <;> simp [Account.setAddresses]

theorem address_setHistoryStatus_ne (account : Account) (ref other : AddressRef)
    (status : String) (h : other ≠ ref) :
    (account.setHistoryStatus ref status).address other = account.address other := by
  unfold Account.address Account.setHistoryStatus
  simp only [addresses_setAddresses]
  by_cases hc : other.change = ref.change
  · have hi : ref.index ≠ other.index := by
      intro hi
      apply h
      cases other
      cases ref
      simp_all
    simp only [hc, if_true]
    exact List.getElem?_modify_ne _ _ hi
  · simp [hc]

theorem address_setHistoryStatus_eq (account : Account) (ref : AddressRef) (status : String)
    (a : Address) (h : account.address ref = some a) :
    (account.setHistoryStatus ref status).address ref =
      some { a with HistoryStatus := status } := by
  unfold Account.address at h
  unfold Account.address Account.setHistoryStatus
  simp only [addresses_setAddresses, if_true, List.getElem?_modify_eq, h]
  rfl

theorem flags_setHistoryStatus (account : Account) (ref : AddressRef) (status : String) :
    (account.setHistoryStatus ref status).initialSyncDone = account.initialSyncDone ∧
      (account.setHistoryStatus ref status).feeTargets = account.feeTargets := by
  unfold Account.setHistoryStatus
  exact flags_setAddresses _ _ _

theorem flags_chainEnsureAddresses (env : Environment) (account : Account) (change : Bool) :
    (account.chainEnsureAddresses env change).1.initialSyncDone = account.initialSyncDone ∧
      (account.chainEnsureAddresses env change).1.feeTargets = account.feeTargets := by
  unfold Account.chainEnsureAddresses
  exact flags_setAddresses _ _ _

theorem address_chainEnsureAddresses (env : Environment) (account : Account) (change : Bool)
    (other : AddressRef) (a : Address) (h : account.address other = some a) :
    (account.chainEnsureAddresses env change).1.address other = some a ∧
      ∀ y ∈ (account.chainEnsureAddresses env change).2, y.1 ≠ other := by
  unfold Account.address at h
  have hlt : other.index < (account.addresses other.change).addresses.length := by
    rcases Nat.lt_or_ge other.index (account.addresses other.change).addresses.length with h1 | h1
    · exact h1
    · rw [List.getElem?_eq_none h1] at h
      exact absurd h (by simp)
  constructor
  · unfold Account.address Account.chainEnsureAddresses
    simp only [addresses_setAddresses]
    by_cases hc : other.change = change
    · simp only [hc, if_true]
      rw [List.getElem?_append_left (by rw [← hc]; exact hlt), ← hc]
      exact h
    · simp only [hc, if_false]
      exact h
  · intro y hy heq
    unfold Account.chainEnsureAddresses at hy
    simp only [List.mem_map] at hy
    obtain ⟨p, _, hp⟩ := hy
    rw [← hp] at heq
    simp only at heq
    rw [← heq] at hlt
    simp only at hlt
    omega

theorem flags_subscribeAddress (env : Environment) (account : Account)
    (address : AddressRef × Address) :
    (account.subscribeAddress env address).1.initialSyncDone = account.initialSyncDone ∧
      (account.subscribeAddress env address).1.feeTargets = account.feeTargets := by
  unfold Account.subscribeAddress
  cases env.AddressHistory address.2.scriptHashHex with
  | error err => exact ⟨rfl, rfl⟩
  | ok history => exact flags_setHistoryStatus _ _ _

theorem address_subscribeAddress (env : Environment) (account : Account)
    (address : AddressRef × Address) (other : AddressRef) (h : address.1 ≠ other) :
    (account.subscribeAddress env address).1.address other = account.address other := by
  unfold Account.subscribeAddress
  cases env.AddressHistory address.2.scriptHashHex with
  | error err => rfl
  | ok history => exact address_setHistoryStatus_ne _ _ _ _ (Ne.symm h)

theorem trace_subscribeAddress (env : Environment) (account : Account)
    (address : AddressRef × Address) (h : (account.subscribeAddress env address).2.2 = none) :
    (account.subscribeAddress env address).2.1 = subscribeTrace address := by
  unfold Account.subscribeAddress at h ⊢
  cases hh : env.AddressHistory address.2.scriptHashHex with
  | error err =>
    rw [hh] at h
    exact absurd h (by simp)
  | ok history => rfl

theorem subscribeAddresses_cons_error (env : Environment) (account : Account)
    (address : AddressRef × Address) (rest : List (AddressRef × Address)) (err : Error)
    (h : (account.subscribeAddress env address).2.2 = some err) :
    Account.subscribeAddresses env account (address :: rest) =
      account.subscribeAddress env address := by
  simp only [Account.subscribeAddresses]
  generalize account.subscribeAddress env address = x at h
  obtain ⟨a1, t1, e1⟩ := x
  simp only at h
  subst h
  rfl

theorem subscribeAddresses_cons_ok (env : Environment) (account : Account)
    (address : AddressRef × Address) (rest : List (AddressRef × Address))
    (h : (account.subscribeAddress env address).2.2 = none) :
    Account.subscribeAddresses env account (address :: rest) =
      ((Account.subscribeAddresses env (account.subscribeAddress env address).1 rest).1,
        (account.subscribeAddress env address).2.1 ++
          (Account.subscribeAddresses env (account.subscribeAddress env address).1 rest).2.1,
        (Account.subscribeAddresses env (account.subscribeAddress env address).1 rest).2.2) := by
  simp only [Account.subscribeAddresses]
  generalize account.subscribeAddress env address = x at h
  obtain ⟨a1, t1, e1⟩ := x
  simp only at h
  subst h
  rfl

theorem subscribeAddresses_spec (env : Environment) :
    ∀ (l : List (AddressRef × Address)) (account : Account),
      ((Account.subscribeAddresses env account l).1.initialSyncDone = account.initialSyncDone ∧
        (Account.subscribeAddresses env account l).1.feeTargets = account.feeTargets) ∧
      (∀ other, (∀ y ∈ l, y.1 ≠ other) →
        (Account.subscribeAddresses env account l).1.address other = account.address other) ∧
      ((Account.subscribeAddresses env account l).2.2 = none →
        (Account.subscribeAddresses env account l).2.1 = l.flatMap subscribeTrace) := by
  intro l
  induction l with
  | nil =>
    intro account
    exact ⟨⟨rfl, rfl⟩, fun _ _ => rfl, fun _ => rfl⟩
  | cons address rest ih =>
    intro account
    cases he : (account.subscribeAddress env address).2.2 with
    | some err =>
      rw [subscribeAddresses_cons_error env account address rest err he]
      refine ⟨flags_subscribeAddress env account address, ?_, ?_⟩
      · intro other hother
        exact address_subscribeAddress env account address other
          (hother address (List.mem_cons_self _ _))
      · intro hnone
        rw [he] at hnone
        exact absurd hnone (by simp)
    | none =>
      rw [subscribeAddresses_cons_ok env account address rest he]
      obtain ⟨⟨ih1, ih2⟩, ih3, ih4⟩ := ih (account.subscribeAddress env address).1
      obtain ⟨f1, f2⟩ := flags_subscribeAddress env account address
      refine ⟨⟨ih1.trans f1, ih2.trans f2⟩, ?_, ?_⟩
      · intro other hother
        simp only
        rw [ih3 other fun y hy => hother y (List.mem_cons_of_mem _ hy)]
        exact address_subscribeAddress env account address other
          (hother address (List.mem_cons_self _ _))
      · intro hnone
        simp only at hnone ⊢
        rw [ih4 hnone, trace_subscribeAddress env account address he, List.flatMap_cons]

theorem syncSequence_spec (env : Environment) (change : Bool) :
    ∀ (fuel : Nat) (account result : Account) (trace : List Action) (err : Option Error),
      account.syncSequence env change fuel = .ok (result, trace, err) →
      (result.initialSyncDone = account.initialSyncDone ∧
        result.feeTargets = account.feeTargets) ∧
      (∀ other a, account.address other = some a → result.address other = some a) ∧
      (err = none →
        ∃ passes : List (List (AddressRef × Address)),
          (∀ newAddresses ∈ passes, newAddresses ≠ []) ∧
            trace = branchTrace change passes) := by
  intro fuel
  induction fuel with
  | zero =>
    intro account result trace err h
    simp [Account.syncSequence] at h
  | succ fuel ih =>
    intro account result trace err h
    simp only [Account.syncSequence] at h
    have hflags := flags_chainEnsureAddresses env account change
    have haddr := address_chainEnsureAddresses env account change
    by_cases hlen : (account.chainEnsureAddresses env change).2.length = 0
    · simp only [hlen, if_true, Except.ok.injEq, Prod.mk.injEq] at h
      obtain ⟨h1, h2, h3⟩ := h
      subst h1
      refine ⟨hflags, fun other a ha => (haddr other a ha).1, fun _ => ⟨[], ?_, ?_⟩⟩
      · intro p hp
        simp at hp
      · rw [← h2, List.length_eq_zero.mp hlen]
        rfl
    · simp only [hlen, if_false] at h
      have hsub := subscribeAddresses_spec env (account.chainEnsureAddresses env change).2
        (account.chainEnsureAddresses env change).1
      generalize hx : Account.subscribeAddresses env (account.chainEnsureAddresses env change).1
        (account.chainEnsureAddresses env change).2 = x at h hsub
      obtain ⟨a1, t1, e1⟩ := x
      obtain ⟨⟨s1, s2⟩, s3, s4⟩ := hsub
      simp only at s1 s2 s3 s4
      cases e1 with
      | some e =>
        simp only [Except.ok.injEq, Prod.mk.injEq] at h
        obtain ⟨h1, h2, h3⟩ := h
        subst h1
        refine ⟨⟨s1.trans hflags.1, s2.trans hflags.2⟩, ?_, ?_⟩
        · intro other a ha
          rw [s3 other (haddr other a ha).2]
          exact (haddr other a ha).1
        · intro hnone
          rw [← h3] at hnone
          exact absurd hnone (by simp)
      | none =>
        simp only at h
        cases hrec : Account.syncSequence env change fuel a1 with
        | error failure =>
          rw [hrec] at h
          simp at h
        | ok r =>
          obtain ⟨a2, t2, e2⟩ := r
          rw [hrec] at h
          simp only [Except.ok.injEq, Prod.mk.injEq] at h
          obtain ⟨h1, h2, h3⟩ := h
          subst h1
          obtain ⟨⟨i1, i2⟩, i3, i4⟩ := ih a1 a2 t2 e2 hrec
          refine ⟨⟨(i1.trans s1).trans hflags.1, (i2.trans s2).trans hflags.2⟩, ?_, ?_⟩
          · intro other a ha
            apply i3
            rw [s3 other (haddr other a ha).2]
            exact (haddr other a ha).1
          · intro hnone
            obtain ⟨passes, hp1, hp2⟩ := i4 (h3.trans hnone)
            refine ⟨(account.chainEnsureAddresses env change).2 :: passes, ?_, ?_⟩
            · intro p hp
              rcases List.mem_cons.mp hp with hp | hp
              · rw [hp]
                intro hnil
                exact hlen (by rw [hnil]; rfl)
              · exact hp1 p hp
            · rw [← h2, hp2, s4 rfl]
              simp [branchTrace, List.flatMap_cons]

theorem ensureAddresses_spec (fuel : Nat) (env : Environment) (account result : Account)
    (trace : List Action) (h : account.ensureAddresses fuel env = .ok (result, trace)) :
    (result.initialSyncDone = account.initialSyncDone ∧
      result.feeTargets = account.feeTargets) ∧
    (∀ other a, account.address other = some a → result.address other = some a) ∧
    ∃ receivePasses changePasses : List (List (AddressRef × Address)),
      (∀ newAddresses ∈ receivePasses, newAddresses ≠ []) ∧
      (∀ newAddresses ∈ changePasses, newAddresses ≠ []) ∧
      trace =
        [Lock, IncRequestsCounter, dbBegin] ++ branchTrace false receivePasses ++
          branchTrace true changePasses ++ [dbRollback, done, Unlock] := by
  unfold Account.ensureAddresses at h
  cases hb : env.dbBegin with
  | some e =>
    rw [hb] at h
    simp at h
  | none =>
    rw [hb] at h
    simp only at h
    cases h1 : account.syncSequence env false fuel with
    | error failure =>
      rw [h1] at h
      simp at h
    | ok r1 =>
      obtain ⟨a1, t1, e1⟩ := r1
      rw [h1] at h
      cases e1 with
      | some e => simp at h
      | none =>
        simp only at h
        cases h2 : a1.syncSequence env true fuel with
        | error failure =>
          rw [h2] at h
          simp at h
        | ok r2 =>
          obtain ⟨a2, t2, e2⟩ := r2
          rw [h2] at h
          cases e2 with
          | some e => simp at h
          | none =>
            simp only [Except.ok.injEq, Prod.mk.injEq] at h
            obtain ⟨ha, ht⟩ := h
            subst ha
            obtain ⟨⟨p1, p2⟩, p3, p4⟩ := syncSequence_spec env false fuel account a1 t1 none h1
            obtain ⟨⟨q1, q2⟩, q3, q4⟩ := syncSequence_spec env true fuel a1 a2 t2 none h2
            obtain ⟨receivePasses, r1, r2⟩ := p4 rfl
            obtain ⟨changePasses, c1, c2⟩ := q4 rfl
            refine ⟨⟨q1.trans p1, q2.trans p2⟩, fun other a hoa => q3 other a (p3 other a hoa),
              receivePasses, changePasses, r1, c1, ?_⟩
            rw [← ht, r2, c2]

theorem syncSequence_fuel_succ (env : Environment) (change : Bool) :
    ∀ (fuel : Nat) (account : Account) (r : Account × List Action × Option Error),
      account.syncSequence env change fuel = .ok r →
      account.syncSequence env change (fuel + 1) = .ok r := by
  intro fuel
  induction fuel with
  | zero =>
    intro account r h
    simp [Account.syncSequence] at h
  | succ fuel ih =>
    intro account r h
    rw [Account.syncSequence] at h
    rw [Account.syncSequence]
    by_cases hlen : (account.chainEnsureAddresses env change).2.length = 0
    · simp only [hlen, if_true] at h ⊢
      exact h
    · simp only [hlen, if_false] at h ⊢
      generalize Account.subscribeAddresses env (account.chainEnsureAddresses env change).1
        (account.chainEnsureAddresses env change).2 = x at h ⊢
      obtain ⟨a1, t1, e1⟩ := x
      cases e1 with
      | some e => exact h
      | none =>
        simp only at h ⊢
        cases hrec : Account.syncSequence env change fuel a1 with
        | error failure =>
          rw [hrec] at h
          simp at h
        | ok r2 =>
          rw [hrec] at h
          rw [ih a1 r2 hrec]
          exact h

theorem ensureAddresses_fuel_succ (fuel : Nat) (env : Environment) (account : Account)
    (r : Account × List Action) (h : account.ensureAddresses fuel env = .ok r) :
    account.ensureAddresses (fuel + 1) env = .ok r := by
  unfold Account.ensureAddresses at h ⊢
  cases hb : env.dbBegin with
  | some e =>
    rw [hb] at h
    simp at h
  | none =>
    rw [hb] at h
    simp only at h ⊢
    cases h1 : account.syncSequence env false fuel with
    | error failure =>
      rw [h1] at h
      simp at h
    | ok r1 =>
      rw [h1] at h
      rw [syncSequence_fuel_succ env false fuel account r1 h1]
      obtain ⟨a1, t1, e1⟩ := r1
      cases e1 with
      | some e => simp at h
      | none =>
        simp only at h ⊢
        cases h2 : a1.syncSequence env true fuel with
        | error failure =>
          rw [h2] at h
          simp at h
        | ok r2 =>
          rw [h2] at h
          rw [syncSequence_fuel_succ env true fuel a1 r2 h2]
          exact h

/-! ## Lemmas on the fee estimates -/

theorem count_estimateFee_above (blocks slot : Nat) :
    ∀ (table : List FeeTarget) (start : Nat), slot < start →
      ((table.enumFrom start).map fun p => EstimateFee p.2.Blocks p.1).count
        (EstimateFee blocks slot) = 0 := by
  intro table
  induction table with
  | nil => intro start _; rfl
  | cons t rest ih =>
    intro start hlt
    rw [List.enumFrom_cons, List.map_cons, List.count_cons, ih (start + 1) (by omega)]
    have : ¬ start = slot := by omega
    simp [this]

theorem count_estimateFee (table : List FeeTarget) :
    ∀ (start i : Nat) (feeTarget : FeeTarget), table[i]? = some feeTarget →
      ((table.enumFrom start).map fun p => EstimateFee p.2.Blocks p.1).count
        (EstimateFee feeTarget.Blocks (start + i)) = 1 := by
  induction table with
  | nil => intro start i feeTarget h; simp at h
  | cons t rest ih =>
    intro start i feeTarget h
    rw [List.enumFrom_cons, List.map_cons, List.count_cons]
    cases i with
    | zero =>
      have ht : t = feeTarget := by simpa using h
      rw [count_estimateFee_above feeTarget.Blocks (start + 0) rest (start + 1) (by omega), ht]
      simp
    | succ i =>
      have hrest : rest[i]? = some feeTarget := by simpa using h
      have e : start + (i + 1) = start + 1 + i := by omega
      rw [e, ih (start + 1) i feeTarget hrest]
      have : ¬ start = start + 1 + i := by omega
      simp [this]

theorem setFee_spec (account : Account) (i : Nat) (feeTarget : FeeTarget) (rate : Int)
    (hi : account.feeTargets[i]? = some feeTarget) :
    ∃ after : Account,
      account.setFee i rate =
          .ok (after, [Lock, onEvent EventFeeTargetsChanged, Unlock], none) ∧
        after.feeTargets[i]? =
          some { Blocks := feeTarget.Blocks, Code := feeTarget.Code, FeeRatePerKb := some rate } ∧
        (∀ j, j ≠ i → after.feeTargets[j]? = account.feeTargets[j]?) ∧
        after.feeTargets.length = account.feeTargets.length ∧
        after.receiveAddresses = account.receiveAddresses ∧
        after.changeAddresses = account.changeAddresses ∧
        after.initialSyncDone = account.initialSyncDone := by
  have hlt : i < account.feeTargets.length := by
    rcases Nat.lt_or_ge i account.feeTargets.length with h | h
    · exact h
    · rw [List.getElem?_eq_none h] at hi
      exact absurd hi (by simp)
  refine ⟨{ account with
      feeTargets := account.feeTargets.set i { feeTarget with FeeRatePerKb := some rate } },
    by simp only [Account.setFee, hi], ?_, ?_, ?_, rfl, rfl, rfl⟩
  · simp [List.getElem?_set, hlt]
  · intro j hj
    simp [List.getElem?_set, Ne.symm hj]
  · simp

/-! ## Lemmas on the transition system -/

theorem dropError_ok (r : Except Failure (Account × List Action × Option Error))
    (after : Account) (trace : List Action) (h : dropError r = .ok (after, trace)) :
    ∃ err, r = .ok (after, trace, err) := by
  unfold dropError at h
  cases r with
  | error failure => simp at h
  | ok x =>
    obtain ⟨a, t, e⟩ := x
    simp only [Except.ok.injEq, Prod.mk.injEq] at h
    exact ⟨e, by rw [h.1, h.2]⟩

theorem setFee_flag (account after : Account) (i : Nat) (rate : Int) (trace : List Action)
    (err : Option Error) (h : account.setFee i rate = .ok (after, trace, err)) :
    after.initialSyncDone = account.initialSyncDone := by
  unfold Account.setFee at h
  cases hi : account.feeTargets[i]? with
  | none =>
    rw [hi] at h
    simp at h
  | some target =>
    rw [hi] at h
    simp only [Except.ok.injEq, Prod.mk.injEq] at h
    rw [← h.1]

theorem step_flag (fuel : Nat) (env : Environment) (account after : Account) (input : Input)
    (trace : List Action) (hinput : input ≠ Input.onSyncDone)
    (hflag : account.initialSyncDone = false)
    (h : account.step fuel env input = .ok (after, trace)) :
    after.initialSyncDone = false := by
  have same : ∀ t : List Action,
      (Except.ok (account, t) : Except Failure (Account × List Action)) = .ok (after, trace) →
      after.initialSyncDone = false := by
    intro t ht
    simp only [Except.ok.injEq, Prod.mk.injEq] at ht
    rw [← ht.1]
    exact hflag
  cases input with
  | Init =>
    simp only [Account.step, Account.Init] at h
    cases he : account.ensureAddresses fuel env with
    | error failure =>
      rw [he] at h
      simp at h
    | ok r =>
      obtain ⟨account1, trace1⟩ := r
      rw [he] at h
      simp only at h
      cases hs : env.HeadersSubscribe with
      | some e =>
        rw [hs] at h
        simp at h
      | none =>
        rw [hs] at h
        simp only [Except.ok.injEq, Prod.mk.injEq] at h
        rw [← h.1, (ensureAddresses_spec fuel env account account1 trace1 he).1.1]
        exact hflag
  | Close =>
    simp only [Account.step, Account.Close, Except.ok.injEq, Prod.mk.injEq] at h
    rw [← h.1]
  | Initialized => exact same _ h
  | FeeTargets => exact same _ h
  | Balance => exact same _ h
  | Transactions => exact same _ h
  | GetUnusedReceiveAddress => exact same _ h
  | KeyStore => exact same _ h
  | HeadersStatus => exact same _ h
  | onNewHeader => exact same _ h
  | onEstimateFee feeTarget feeRatePerKb =>
    obtain ⟨err, h⟩ := dropError_ok _ _ _ h
    unfold Account.onEstimateFee at h
    cases hi : account.feeTargets[feeTarget]? with
    | none =>
      rw [hi] at h
      simp at h
    | some target =>
      rw [hi] at h
      cases feeRatePerKb with
      | none =>
        simp only [Except.ok.injEq, Prod.mk.injEq] at h
        rw [← h.1]
        exact hflag
      | some rate =>
        simp only at h
        rw [setFee_flag account after feeTarget rate trace err h]
        exact hflag
  | onRelayFee feeTarget feeRatePerKb =>
    obtain ⟨err, h⟩ := dropError_ok _ _ _ h
    rw [setFee_flag account after feeTarget feeRatePerKb trace err h]
    exact hflag
  | onAddressStatus address status =>
    obtain ⟨err, h⟩ := dropError_ok _ _ _ h
    unfold Account.onAddressStatus at h
    cases ha : account.address address with
    | none =>
      rw [ha] at h
      simp at h
    | some a =>
      rw [ha] at h
      simp only at h
      by_cases hs : status = a.HistoryStatus
      · simp only [hs, if_true, Except.ok.injEq, Prod.mk.injEq] at h
        rw [← h.1]
        exact hflag
      · simp only [hs, if_false, Except.ok.injEq, Prod.mk.injEq] at h
        rw [← h.1]
        exact hflag
  | onHistory address status history =>
    obtain ⟨err, h⟩ := dropError_ok _ _ _ h
    unfold Account.onHistory at h
    cases ha : account.address address with
    | none =>
      rw [ha] at h
      simp at h
    | some a =>
      rw [ha] at h
      simp only at h
      cases he : (account.setHistoryStatus address (env.Status history)).ensureAddresses
          fuel env with
      | error failure =>
        rw [he] at h
        simp at h
      | ok r =>
        obtain ⟨account2, trace2⟩ := r
        rw [he] at h
        simp only [Except.ok.injEq, Prod.mk.injEq] at h
        rw [← h.1, (ensureAddresses_spec fuel env _ _ _ he).1.1,
          (flags_setHistoryStatus account address (env.Status history)).1]
        exact hflag
  | onHeadersEvent eventSynced =>
    cases eventSynced <;> exact same _ h
  | onSyncStarted => exact same _ h
  | onSyncDone => exact absurd rfl hinput

theorem run_flag (fuel : Nat) :
    ∀ (inputs : List (Environment × Input)) (account after : Account) (trace : List Action),
      (∀ x ∈ inputs, x.2 ≠ Input.onSyncDone) → account.initialSyncDone = false →
      account.run fuel inputs = .ok (after, trace) → after.initialSyncDone = false := by
  intro inputs
  induction inputs with
  | nil =>
    intro account after trace _ hflag h
    simp only [Account.run, Except.ok.injEq, Prod.mk.injEq] at h
    rw [← h.1]
    exact hflag
  | cons x rest ih =>
    intro account after trace hin hflag h
    obtain ⟨env, input⟩ := x
    simp only [Account.run] at h
    cases hs : account.step fuel env input with
    | error failure =>
      rw [hs] at h
      simp at h
    | ok r =>
      obtain ⟨account1, trace1⟩ := r
      rw [hs] at h
      simp only at h
      cases hr : Account.run fuel account1 rest with
      | error failure =>
        rw [hr] at h
        simp at h
      | ok r2 =>
        obtain ⟨account2, trace2⟩ := r2
        rw [hr] at h
        simp only [Except.ok.injEq, Prod.mk.injEq] at h
        rw [← h.1]
        exact ih account1 account2 trace2 (fun y hy => hin y (List.mem_cons_of_mem _ hy))
          (step_flag fuel env account account1 input trace1
            (hin (env, input) (List.mem_cons_self _ _)) hflag hs) hr

theorem done_not_mem_branchTrace (change : Bool)
    (passes : List (List (AddressRef × Address))) : done ∉ branchTrace change passes := by
  simp [branchTrace, subscribeTrace, List.mem_flatMap]

/-! ## The claims on the engine -/

/-- C5: for every address `a` and status `s` equal to `a.HistoryStatus`, `onAddressStatus(a, s)`
returns no error, makes no call at all (so no `ScriptHashGetHistory` request and no
synchronizer token) and leaves the account unchanged.  Hence, once the reply to the history
request of a first delivery of `s` has been handled and the history replied has the status `s`,
a second delivery of `s` makes no call either. -/
theorem onAddressStatus_same_status (env : Environment) (address : AddressRef)
    (status : String) :
    (∀ (account : Account) (a : Address), account.address address = some a →
        status = a.HistoryStatus →
        account.onAddressStatus env address status = .ok (account, [], none)) ∧
      ∀ (fuel : Nat) (replyEnv : Environment) (account after : Account) (history : TxHistory)
        (trace : List Action) (err : Option Error),
        account.onHistory fuel replyEnv address status history = .ok (after, trace, err) →
        replyEnv.Status history = status →
        after.onAddressStatus env address status = .ok (after, [], none) := by
  have first : ∀ (account : Account) (a : Address), account.address address = some a →
      status = a.HistoryStatus →
      account.onAddressStatus env address status = .ok (account, [], none) := by
    intro account a ha hs
    simp only [Account.onAddressStatus, ha, hs, if_true]
  refine ⟨first, ?_⟩
  intro fuel replyEnv account after history trace err h hstatus
  unfold Account.onHistory at h
  cases ha : account.address address with
  | none =>
    rw [ha] at h
    simp at h
  | some a =>
    rw [ha] at h
    simp only at h
    cases he : (account.setHistoryStatus address (replyEnv.Status history)).ensureAddresses
        fuel replyEnv with
    | error failure =>
      rw [he] at h
      simp at h
    | ok r =>
      obtain ⟨account2, trace2⟩ := r
      rw [he] at h
      simp only [Except.ok.injEq, Prod.mk.injEq] at h
      obtain ⟨h1, _, _⟩ := h
      subst h1
      have hkeep := (ensureAddresses_spec fuel replyEnv _ _ _ he).2.1 address _
        (address_setHistoryStatus_eq account address (replyEnv.Status history) a ha)
      exact first account2 _ hkeep hstatus.symm

/-- C5 at a concrete account: the delivery of the status `tx1:` the first receive address
already has makes no call, and after the reply to a history request for the status `tx2:` has
been handled, a further delivery of `tx2:` makes no call. -/
theorem onAddressStatus_same_status_witness :
    syncedSmallAccount.onAddressStatus testEnvironment { change := false, index := 0 } "tx1:" =
        .ok (syncedSmallAccount, [], none) ∧
      ∃ (after : Account) (trace : List Action) (err : Option Error),
        syncedSmallAccount.onHistory 3 testEnvironment { change := false, index := 1 } "tx2:"
            [("tx2", 9)] = .ok (after, trace, err) ∧
          after.onAddressStatus testEnvironment { change := false, index := 1 } "tx2:" =
            .ok (after, [], none) :=
  ⟨(onAddressStatus_same_status testEnvironment { change := false, index := 0 } "tx1:").1
      syncedSmallAccount { scriptHashHex := "r", HistoryStatus := "tx1:" } rfl rfl,
    _, _, _, rfl,
    (onAddressStatus_same_status testEnvironment { change := false, index := 1 } "tx2:").2
      3 testEnvironment syncedSmallAccount _ [("tx2", 9)] _ _ rfl rfl⟩

/-- C7: from every account state, `Close` leaves `Initialized()` false, emits exactly one
`StatusChanged` event and makes no other call (so nothing is asked of the transaction store),
and changes neither the fee-target table nor the address chains. -/
theorem Close_frame (account : Account) :
    account.Close.1.Initialized = false ∧
      account.Close.2 = [onEvent EventStatusChanged] ∧
      account.Close.2.count (onEvent EventStatusChanged) = 1 ∧
      (∀ action ∈ account.Close.2, action = onEvent EventStatusChanged) ∧
      account.Close.1.feeTargets = account.feeTargets ∧
      account.Close.1.receiveAddresses = account.receiveAddresses ∧
      account.Close.1.changeAddresses = account.changeAddresses ∧
      ∀ fuel env, account.step fuel env Input.Close = .ok account.Close := by
  refine ⟨rfl, rfl, by simp [Account.Close], ?_, rfl, rfl, rfl, fun _ _ => rfl⟩
  intro action h
  simpa [Account.Close] using h

/-- C8: `updateFeeTargets` leaves the account as it is and requests `EstimateFee` once for
every target of the table, with that target's `Blocks`.  A reply with a rate stores that rate in
the target; an absent reply makes one `RelayFee` request and stores nothing, and the reply to
that request stores the relay fee in the target.  Each store is followed by one
`FeeTargetsChanged` event and changes nothing but the rate of that target. -/
theorem updateFeeTargets_estimates (env : Environment) (account : Account) (i : Nat)
    (feeTarget : FeeTarget) (hi : account.feeTargets[i]? = some feeTarget) :
    (account.updateFeeTargets.1 = account ∧
        account.updateFeeTargets.2.count (EstimateFee feeTarget.Blocks i) = 1) ∧
      (∀ rate : Int, ∃ after : Account,
        account.onEstimateFee env i (some rate) =
            .ok (after, [Lock, onEvent EventFeeTargetsChanged, Unlock], none) ∧
          after.feeTargets[i]? =
            some { Blocks := feeTarget.Blocks, Code := feeTarget.Code,
                   FeeRatePerKb := some rate } ∧
          (∀ j, j ≠ i → after.feeTargets[j]? = account.feeTargets[j]?) ∧
          after.feeTargets.length = account.feeTargets.length ∧
          after.receiveAddresses = account.receiveAddresses ∧
          after.changeAddresses = account.changeAddresses ∧
          after.initialSyncDone = account.initialSyncDone) ∧
      account.onEstimateFee env i none = .ok (account, [RelayFee i], env.RelayFee) ∧
      ∀ relayFee : Int, ∃ after : Account,
        account.onRelayFee i relayFee =
            .ok (after, [Lock, onEvent EventFeeTargetsChanged, Unlock], none) ∧
          after.feeTargets[i]? =
            some { Blocks := feeTarget.Blocks, Code := feeTarget.Code,
                   FeeRatePerKb := some relayFee } ∧
          (∀ j, j ≠ i → after.feeTargets[j]? = account.feeTargets[j]?) ∧
          after.feeTargets.length = account.feeTargets.length ∧
          after.receiveAddresses = account.receiveAddresses ∧
          after.changeAddresses = account.changeAddresses ∧
          after.initialSyncDone = account.initialSyncDone := by
  refine ⟨⟨rfl, ?_⟩, ?_, ?_, ?_⟩
  · have h := count_estimateFee account.feeTargets 0 i feeTarget hi
    rw [Nat.zero_add] at h
    simp only [Account.updateFeeTargets, List.count_append, List.enum]
    rw [h]
    simp
  · intro rate
    obtain ⟨after, h⟩ := setFee_spec account i feeTarget rate hi
    refine ⟨after, ?_⟩
    simpa only [Account.onEstimateFee, hi] using h
  · simp only [Account.onEstimateFee, hi]
  · intro relayFee
    exact setFee_spec account i feeTarget relayFee hi

/-- C8 at the table of a new account, for the target Normal in slot 2. -/
theorem updateFeeTargets_estimates_witness :
    (accountWithTable tableUnset).feeTargets[2]? =
        some { Blocks := 5, Code := FeeTargetCodeNormal, FeeRatePerKb := none } ∧
      (accountWithTable tableUnset).updateFeeTargets.2.count (EstimateFee 5 2) = 1 ∧
      (accountWithTable tableUnset).onEstimateFee testEnvironment 2 none =
        .ok (accountWithTable tableUnset, [RelayFee 2], none) :=
  ⟨rfl,
    (updateFeeTargets_estimates testEnvironment (accountWithTable tableUnset) 2
      { Blocks := 5, Code := FeeTargetCodeNormal, FeeRatePerKb := none } rfl).1.2,
    (updateFeeTargets_estimates testEnvironment (accountWithTable tableUnset) 2
      { Blocks := 5, Code := FeeTargetCodeNormal, FeeRatePerKb := none } rfl).2.2.1⟩

/-- C6: `Initialized()` is false for a newly constructed account and stays false along every
run of `Init`, address-status and history callbacks, fee-target updates, queries and the other
inputs in which the synchronizer raises no idle edge.  The idle edge raised then emits
`StatusChanged` once, followed by `SyncDone`, and after it `Initialized()` is true; a further
idle edge, as every idle edge on an account for which `Initialized()` is true, emits `SyncDone`
only and leaves the account, with `Initialized()` true, as it is. -/
theorem Initialized_until_first_idle_edge (extendedPublicKey : Except Error Bool)
    (account : Account) (trace0 : List Action)
    (hnew : NewAccount extendedPublicKey = .ok (account, trace0)) :
    account.Initialized = false ∧
      (∀ (fuel : Nat) (inputs : List (Environment × Input)) (after : Account)
          (trace : List Action),
        (∀ x ∈ inputs, x.2 ≠ Input.onSyncDone) →
        account.run fuel inputs = .ok (after, trace) →
        after.Initialized = false ∧
          ∀ env, ∃ synced : Account,
            after.step fuel env Input.onSyncDone =
                .ok (synced, [onEvent EventStatusChanged, onEvent EventSyncDone]) ∧
              synced = { after with initialSyncDone := true } ∧
              synced.Initialized = true ∧
              synced.step fuel env Input.onSyncDone = .ok (synced, [onEvent EventSyncDone])) ∧
      (∀ (later : Account) (fuel : Nat) (env : Environment), later.Initialized = true →
        later.step fuel env Input.onSyncDone = .ok (later, [onEvent EventSyncDone])) ∧
      ∀ (later : Account) (fuel : Nat) (env : Environment), later.initialSyncDone = true →
        later.Initialized = true ∧
          later.step fuel env Input.onSyncDone = .ok (later, [onEvent EventSyncDone]) := by
  have hfalse : account.initialSyncDone = false := by
    unfold NewAccount at hnew
    cases extendedPublicKey with
    | error e => simp at hnew
    | ok isPrivate =>
      cases isPrivate with
      | true => simp at hnew
      | false =>
        simp only [Bool.false_eq_true, if_false, Except.ok.injEq, Prod.mk.injEq] at hnew
        rw [← hnew.1]
  have edge : ∀ (later : Account) (fuel : Nat) (env : Environment),
      later.initialSyncDone = true →
      later.step fuel env Input.onSyncDone = .ok (later, [onEvent EventSyncDone]) := by
    intro later fuel env h
    simp [Account.step, Account.onSyncDone, h]
  refine ⟨hfalse, ?_, fun later fuel env hlater => edge later fuel env hlater,
    fun later fuel env hlater => ⟨hlater, edge later fuel env hlater⟩⟩
  intro fuel inputs after trace hin hrun
  have h := run_flag fuel inputs account after trace hin hfalse hrun
  refine ⟨h, fun env => ⟨{ after with initialSyncDone := true }, ?_, rfl, rfl,
    edge _ fuel env rfl⟩⟩
  simp [Account.step, Account.onSyncDone, h]

/-- C6 at the account `NewAccount` builds for a public extended key, along the run
`testInputs`: `Initialized()` is false after the run and true after the idle edge that
follows it, and a second idle edge emits `SyncDone` only. -/
theorem Initialized_until_first_idle_edge_witness :
    ∃ (account : Account) (trace0 : List Action) (after : Account) (trace : List Action),
      NewAccount (.ok false) = .ok (account, trace0) ∧
        (∀ x ∈ testInputs, x.2 ≠ Input.onSyncDone) ∧
        account.run 3 testInputs = .ok (after, trace) ∧
        after.Initialized = false ∧
        ∃ synced : Account,
          after.step 3 testEnvironment Input.onSyncDone =
              .ok (synced, [onEvent EventStatusChanged, onEvent EventSyncDone]) ∧
            synced = { after with initialSyncDone := true } ∧
            synced.Initialized = true ∧
            synced.step 3 testEnvironment Input.onSyncDone =
              .ok (synced, [onEvent EventSyncDone]) :=
  ⟨_, _, _, _, rfl, by decide, rfl,
    ((Initialized_until_first_idle_edge (.ok false) _ _ rfl).2.1 3 testInputs _ _
      (by decide) rfl).1,
    ((Initialized_until_first_idle_edge (.ok false) _ _ rfl).2.1 3 testInputs _ _
      (by decide) rfl).2 testEnvironment⟩

/-- C9: in one activation of `ensureAddresses` that returns normally, the token is taken on
entry, right after the lock, and released once, on return, right before the unlock.  In
between, the receive branch is handled completely before the change branch.  On each branch
every non-empty list of addresses returned by the chain's `EnsureAddresses` is followed by the
subscription of exactly those addresses, once each and in the order returned, each with
`ScriptHashSubscribe` on its script hash, and the branch ends with the first call of
`EnsureAddresses` that returns no address. -/
theorem ensureAddresses_discovery_loop (fuel : Nat) (env : Environment)
    (account result : Account) (trace : List Action)
    (h : account.ensureAddresses fuel env = .ok (result, trace)) :
    ∃ receivePasses changePasses : List (List (AddressRef × Address)),
      (∀ newAddresses ∈ receivePasses, newAddresses ≠ []) ∧
        (∀ newAddresses ∈ changePasses, newAddresses ≠ []) ∧
        trace =
          [Lock, IncRequestsCounter, dbBegin] ++ branchTrace false receivePasses ++
            branchTrace true changePasses ++ [dbRollback, done, Unlock] ∧
        trace.count done = 1 := by
  obtain ⟨_, _, receivePasses, changePasses, h1, h2, h3⟩ :=
    ensureAddresses_spec fuel env account result trace h
  refine ⟨receivePasses, changePasses, h1, h2, h3, ?_⟩
  rw [h3]
  simp only [List.count_append]
  rw [List.count_eq_zero.mpr (done_not_mem_branchTrace false receivePasses),
    List.count_eq_zero.mpr (done_not_mem_branchTrace true changePasses)]
  decide

/-- C9 at the account `smallAccount` in the concrete environment, where the receive branch
takes two passes (the first receive address has a history in the store) and the change branch
one. -/
theorem ensureAddresses_discovery_loop_witness :
    ∃ (result : Account) (trace : List Action),
      smallAccount.ensureAddresses 3 testEnvironment = .ok (result, trace) ∧
        ∃ receivePasses changePasses : List (List (AddressRef × Address)),
          (∀ newAddresses ∈ receivePasses, newAddresses ≠ []) ∧
            (∀ newAddresses ∈ changePasses, newAddresses ≠ []) ∧
            trace =
              [Lock, IncRequestsCounter, dbBegin] ++ branchTrace false receivePasses ++
                branchTrace true changePasses ++ [dbRollback, done, Unlock] ∧
            trace.count done = 1 :=
  ⟨_, _, rfl, ensureAddresses_discovery_loop 3 testEnvironment smallAccount _ _ rfl⟩

end Btc
